import Mathlib

/-!
# Verification of the SQLparser repository (src/tokenizer.rs, src/parser.rs)

Shallow embedding of the tokenizer and parser of the repository, with
theorems settling the frozen claims about them.

Conventions of the embedding:
  * Rust `char` is Lean `Char`; input text is a `List Char`.
  * Rust `u64` values are `Nat` with the `2 ^ 64` bound checked exactly where
    the source checks it (`str::parse::<u64>` fails iff the value needs more
    than 64 bits).
  * A Rust panic (index out of bounds, `unwrap` on `Err`) is an explicit
    `panic`-like result constructor, never a Lean-side failure.
  * The parser's unbounded recursion is modelled with a fuel parameter; a
    `fuelOut` result means the recursion depth exceeded the fuel.  Theorems
    about termination quantify over fuel.
  * Rust error messages are built with `format!` and `Debug`; the embedding
    keeps the static text of each message and drops the interpolated token
    printout, which no claim depends on.
-/

namespace SQLParse

/-- Keywords, from src/token.rs (the closed enumeration listed in the spec
and matched in `Tokenizer::read_word`). -/
inductive Keyword where
  | Select | From | Where | Create | Table | Order | By | Asc | Desc
  | And | Or | Not | True | False | Primary | Key | Check
  | Int | Bool | Varchar | Null
  deriving DecidableEq, Repr

/-- Tokens, from src/token.rs as used by src/tokenizer.rs. -/
inductive Token where
  | Eof
  | Plus | Minus | Star | Divide
  | LeftParentheses | RightParentheses
  | Comma | Semicolon | Equal
  | GreaterThan | GreaterThanOrEqual | LessThan | LessThanOrEqual | NotEqual
  | Invalid (c : Char)
  | Number (n : Nat)
  | String (s : List Char)
  | Identifier (s : List Char)
  | Keyword (k : Keyword)
  deriving DecidableEq, Repr

/-- `Tokenizer::read_string`'s accumulation loop (src/tokenizer.rs lines
114-130): `q` is the already-consumed opening quote, `content` the characters
pushed so far.  Reaching the matching quote yields a `String` token and the
rest of the input; exhausting the input yields `Invalid q`. -/
def read_string_go (q : Char) (content : List Char) : List Char → Token × List Char
  | [] => (Token.Invalid q, [])
  | c :: cs => if c = q then (Token.String content, cs) else read_string_go q (content ++ [c]) cs

/-- `Tokenizer::read_string` (src/tokenizer.rs lines 114-130), after the
opening quote `q` has been consumed by the caller's dispatch. -/
def read_string (q : Char) (cs : List Char) : Token × List Char :=
  read_string_go q [] cs

/-- The digit-collection loop of `Tokenizer::read_number` (src/tokenizer.rs
lines 99-108): the maximal leading run of ASCII digits, and the rest. -/
def read_digits : List Char → List Char × List Char
  | [] => ([], [])
  | c :: cs =>
    if c.isDigit then
      let p := read_digits cs
      (c :: p.1, p.2)
    else ([], c :: cs)

/-- The numeric value of a digit run, as `str::parse::<u64>` computes it
(base 10, most significant first). -/
def digitsToNat (ds : List Char) : Nat :=
  ds.foldl (fun a c => 10 * a + (c.toNat - 48)) 0

/-- `Tokenizer::read_number` (src/tokenizer.rs lines 99-111).  The source
calls `number.parse::<u64>().unwrap()`: parsing fails exactly when the value
exceeds `u64::MAX`, and the `unwrap` then aborts the process.  `none` models
that panic. -/
def read_number (cs : List Char) : Option (Token × List Char) :=
  if digitsToNat (read_digits cs).1 < 2 ^ 64 then
    some (Token.Number (digitsToNat (read_digits cs).1), (read_digits cs).2)
  else none

/-- The word-collection loop of `Tokenizer::read_word` (src/tokenizer.rs
lines 133-142): maximal run of ASCII alphanumerics and underscores. -/
def read_word_chars : List Char → List Char × List Char
  | [] => ([], [])
  | c :: cs =>
    if c.isAlphanum ∨ c = '_' then
      let p := read_word_chars cs
      (c :: p.1, p.2)
    else ([], c :: cs)

/-- The keyword match arms of `Tokenizer::read_word` (src/tokenizer.rs lines
144-165), as a lookup table keyed by the uppercased spelling. -/
def keyword_table : List (List Char × Keyword) :=
  [("SELECT".data, Keyword.Select), ("FROM".data, Keyword.From),
   ("WHERE".data, Keyword.Where), ("CREATE".data, Keyword.Create),
   ("TABLE".data, Keyword.Table), ("ORDER".data, Keyword.Order),
   ("BY".data, Keyword.By), ("ASC".data, Keyword.Asc),
   ("DESC".data, Keyword.Desc), ("AND".data, Keyword.And),
   ("OR".data, Keyword.Or), ("NOT".data, Keyword.Not),
   ("TRUE".data, Keyword.True), ("FALSE".data, Keyword.False),
   ("PRIMARY".data, Keyword.Primary), ("KEY".data, Keyword.Key),
   ("CHECK".data, Keyword.Check), ("INT".data, Keyword.Int),
   ("BOOL".data, Keyword.Bool), ("VARCHAR".data, Keyword.Varchar),
   ("NULL".data, Keyword.Null)]

/-- The keyword dispatch of `Tokenizer::read_word` (src/tokenizer.rs lines
144-167): the captured word, uppercased, is looked up; a match yields the
keyword token, otherwise the word is an identifier with its original
spelling. -/
def classify_word (w : List Char) : Token :=
  match keyword_table.lookup (w.map Char.toUpper) with
  | some k => Token.Keyword k
  | none => Token.Identifier w

/-- `Tokenizer::read_word` (src/tokenizer.rs lines 133-168). -/
def read_word (cs : List Char) : Token × List Char :=
  (classify_word (read_word_chars cs).1, (read_word_chars cs).2)

/-- The whitespace set skipped by `Tokenizer::next_token`
(src/tokenizer.rs line 23). -/
def isWs (c : Char) : Prop :=
  c = ' ' ∨ c = '\n' ∨ c = '\t' ∨ c = '\r'

instance (c : Char) : Decidable (isWs c) := by
  unfold isWs; infer_instance

/-- The non-whitespace dispatch of `Tokenizer::next_token`
(src/tokenizer.rs lines 27-75): `c` is the peeked first character, `cs` the
input after it.  `none` models the process abort of `read_number`'s
`unwrap`. -/
def next_token_dispatch (c : Char) (cs : List Char) : Option (Token × List Char) :=
  if c = '+' then some (Token.Plus, cs)
    else if c = '-' then some (Token.Minus, cs)
    else if c = '*' then some (Token.Star, cs)
    else if c = '/' then some (Token.Divide, cs)
    else if c = '(' then some (Token.LeftParentheses, cs)
    else if c = ')' then some (Token.RightParentheses, cs)
    else if c = ',' then some (Token.Comma, cs)
    else if c = ';' then some (Token.Semicolon, cs)
    else if c = '=' then some (Token.Equal, cs)
    else if c = '>' then
      match cs with
      | '=' :: rest => some (Token.GreaterThanOrEqual, rest)
      | _ => some (Token.GreaterThan, cs)
    else if c = '<' then
      match cs with
      | '=' :: rest => some (Token.LessThanOrEqual, rest)
      | _ => some (Token.LessThan, cs)
    else if c = '!' then
      match cs with
      | '=' :: rest => some (Token.NotEqual, rest)
      | _ => some (Token.Invalid '!', cs)
    else if c = '"' ∨ c = '\'' then some (read_string c cs)
    else if c.isDigit then read_number (c :: cs)
    else if c.isAlpha ∨ c = '_' then some (read_word (c :: cs))
    else some (Token.Invalid c, cs)

/-- `Tokenizer::next_token` (src/tokenizer.rs lines 19-80): skip whitespace,
then dispatch on the first character; an exhausted input yields the `Eof`
sentinel. -/
def next_token : List Char → Option (Token × List Char)
  | [] => some (Token.Eof, [])
  | c :: cs => if isWs c then next_token cs else next_token_dispatch c cs

/-- Result of running the tokenizer to completion (the `Iterator`
`collect()` of src/main.rs line 38): `panicked` models the numeric-overflow
process abort, `fuelOut` is the fuel-model artifact shown unreachable in
`tokenize_fuel_enough`. -/
inductive LexResult where
  | fuelOut
  | panicked
  | ok (ts : List Token)
  deriving DecidableEq, Repr

/-- The `Iterator for Tokenizer` loop (src/tokenizer.rs lines 172-183):
repeatedly take `next_token`, stop without emitting when the `Eof` sentinel
is produced. -/
def tokenize_go (fuel : Nat) (cs : List Char) : LexResult :=
  match fuel with
  | 0 => LexResult.fuelOut
  | fuel + 1 =>
    match next_token cs with
    | none => LexResult.panicked
    | some (t, rest) =>
      if t = Token.Eof then LexResult.ok []
      else
        match tokenize_go fuel rest with
        | LexResult.ok ts => LexResult.ok (t :: ts)
        | r => r

/-- `Tokenizer::new(text).collect()`: the whole token sequence of an input
text.  The fuel `cs.length + 1` is provably sufficient
(`tokenize_fuel_enough`). -/
def tokenize (cs : List Char) : LexResult :=
  tokenize_go (cs.length + 1) cs

/-! ## AST model (src/statement.rs, as used by src/parser.rs) -/

/-- `UnaryOperator` of src/statement.rs. -/
inductive UnaryOperator where
  | Minus | Plus | Not | Asc | Desc
  deriving DecidableEq, Repr

/-- `BinaryOperator` of src/statement.rs. -/
inductive BinaryOperator where
  | Plus | Minus | Multiply | Divide
  | Equal | NotEqual | LessThan | LessThanOrEqual | GreaterThan | GreaterThanOrEqual
  | And | Or
  deriving DecidableEq, Repr

/-- `Expression` of src/statement.rs. -/
inductive Expression where
  | Number (n : Nat)
  | Identifier (s : List Char)
  | String (s : List Char)
  | Bool (b : Bool)
  | UnaryOperation (operator : UnaryOperator) (operand : Expression)
  | BinaryOperation (operator : BinaryOperator) (left_operand : Expression)
      (right_operand : Expression)
  deriving DecidableEq, Repr

/-- `DBType` of src/statement.rs (`VARCHAR` length is `usize`, identity-cast
from the `u64` token value on this 64-bit target). -/
inductive DBType where
  | Int | Bool | Varchar (len : Nat)
  deriving DecidableEq, Repr

/-- `Constraint` of src/statement.rs. -/
inductive Constraint where
  | PrimaryKey | NotNull | Check (e : Expression)
  deriving DecidableEq, Repr

/-- `TableColumn` of src/statement.rs. -/
structure TableColumn where
  column_name : List Char
  column_type : DBType
  constraints : List Constraint
  deriving DecidableEq, Repr

/-- `Statement` of src/statement.rs.  The Rust fields `from` and `r#where`
are Lean keywords and are spelled `fromTable` and `whereClause`. -/
inductive Statement where
  | Select (columns : List Expression) (fromTable : List Char)
      (whereClause : Option Expression) (orderby : List Expression)
  | CreateTable (table_name : List Char) (column_list : List TableColumn)
  deriving DecidableEq, Repr

/-! ## Parser state and result monad (src/parser.rs) -/

/-- The `Parser` struct of src/parser.rs lines 13-16: a token list and a
position index. -/
structure Parser where
  tokens : List Token
  pos : Nat
  deriving DecidableEq, Repr

/-- Outcome of running a parser computation.  `ok`/`err` are Rust's
`Ok`/`Err` together with the final mutable state of the `Parser` value;
`panic` is a Rust index-out-of-bounds abort; `fuelOut` is the fuel-model
artifact standing for recursion the source performs unboundedly. -/
inductive PRes (α : Type) where
  | ok (val : α) (s : Parser)
  | err (msg : String) (s : Parser)
  | panic
  | fuelOut
  deriving DecidableEq, Repr

/-- The parser-state result of a computation when it neither panicked nor
ran out of fuel. -/
def PRes.state? {α : Type} : PRes α → Option Parser
  | .ok _ s => some s
  | .err _ s => some s
  | .panic => none
  | .fuelOut => none

/-- State-passing computations over the `Parser` struct: each Rust method
taking `&mut self` becomes a function of the state returning a `PRes`. -/
def PM (α : Type) : Type := Parser → PRes α

/-- Sequencing: Rust's `?` / method-call order. -/
def PM.bind {α β : Type} (m : PM α) (f : α → PM β) : PM β := fun s =>
  match m s with
  | .ok a s' => f a s'
  | .err e s' => .err e s'
  | .panic => .panic
  | .fuelOut => .fuelOut

instance : Monad PM where
  pure a := fun s => .ok a s
  bind := PM.bind

/-- Raising a syntax error (`Err(format!(...))` in the source). -/
def perr {α : Type} (msg : String) : PM α := fun s => .err msg s

/-- `Parser::peek` (src/parser.rs lines 24-26): `&self.tokens[self.pos]`,
no state change; indexing out of bounds panics. -/
def peekT : PM Token := fun s =>
  match s.tokens.get? s.pos with
  | some t => .ok t s
  | none => .panic

/-- `Parser::next` (src/parser.rs lines 29-35): clone the current token,
then advance only while `pos < tokens.len() - 1` (the clamp). -/
def nextT : PM Token := fun s =>
  match s.tokens.get? s.pos with
  | some t =>
    .ok t (if s.pos < s.tokens.length - 1 then { s with pos := s.pos + 1 } else s)
  | none => .panic

/-- `Parser::expect` (src/parser.rs lines 38-48). -/
def expectT (expected : Token) : PM Unit := do
  let t ← peekT
  if t = expected then do
    let _ ← nextT
    pure ()
  else perr "Expected specific token, found other"

/-- `Parser::infix_precedence` (src/parser.rs lines 317-328): the binding
power of infix/postfix tokens, `0` for anything else. -/
def tokenPrecedence : Token → Nat
  | Token.Plus | Token.Minus => 25
  | Token.Star | Token.Divide => 30
  | Token.GreaterThan | Token.LessThan | Token.Equal | Token.NotEqual
  | Token.GreaterThanOrEqual | Token.LessThanOrEqual => 20
  | Token.Keyword Keyword.Or => 15
  | Token.Keyword Keyword.And => 10
  | Token.Keyword Keyword.Asc | Token.Keyword Keyword.Desc => 5
  | _ => 0

mutual

/-- `Parser::parse_expression` (src/parser.rs lines 219-314): Pratt parsing.
The prefix position consumes one token and dispatches; unary operators bind
their operand at threshold 100, parentheses restart at 0.  Then control
enters the infix/postfix loop. -/
def parse_expression (fuel : Nat) (minPrec : Nat) : PM Expression :=
  match fuel with
  | 0 => fun _ => .fuelOut
  | fuel + 1 => do
    let t ← nextT
    let left ←
      match t with
      | Token.Number n => pure (Expression.Number n)
      | Token.Identifier s => pure (Expression.Identifier s)
      | Token.String s => pure (Expression.String s)
      | Token.Keyword Keyword.True => pure (Expression.Bool true)
      | Token.Keyword Keyword.False => pure (Expression.Bool false)
      | Token.LeftParentheses => do
        let e ← parse_expression fuel 0
        expectT Token.RightParentheses
        pure e
      | Token.Minus => do
        let rhs ← parse_expression fuel 100
        pure (Expression.UnaryOperation UnaryOperator.Minus rhs)
      | Token.Plus => do
        let rhs ← parse_expression fuel 100
        pure (Expression.UnaryOperation UnaryOperator.Plus rhs)
      | Token.Keyword Keyword.Not => do
        let rhs ← parse_expression fuel 100
        pure (Expression.UnaryOperation UnaryOperator.Not rhs)
      | _ => perr "Unexpected prefix token"
    expression_loop fuel minPrec left

/-- The `loop` of `Parser::parse_expression` (src/parser.rs lines 248-311):
while the peeked token's precedence exceeds the threshold, consume it and
either recurse for a binary right operand or attach a postfix ASC/DESC. -/
def expression_loop (fuel : Nat) (minPrec : Nat) (left : Expression) : PM Expression :=
  match fuel with
  | 0 => fun _ => .fuelOut
  | fuel + 1 => do
    let t ← peekT
    if tokenPrecedence t ≤ minPrec then pure left
    else do
      let tok ← nextT
      match tok with
      | Token.Plus => do
        let rhs ← parse_expression fuel 25
        expression_loop fuel minPrec
          (Expression.BinaryOperation BinaryOperator.Plus left rhs)
      | Token.Minus => do
        let rhs ← parse_expression fuel 25
        expression_loop fuel minPrec
          (Expression.BinaryOperation BinaryOperator.Minus left rhs)
      | Token.Star => do
        let rhs ← parse_expression fuel 30
        expression_loop fuel minPrec
          (Expression.BinaryOperation BinaryOperator.Multiply left rhs)
      | Token.Divide => do
        let rhs ← parse_expression fuel 30
        expression_loop fuel minPrec
          (Expression.BinaryOperation BinaryOperator.Divide left rhs)
      | Token.GreaterThan => do
        let rhs ← parse_expression fuel 20
        expression_loop fuel minPrec
          (Expression.BinaryOperation BinaryOperator.GreaterThan left rhs)
      | Token.Keyword Keyword.And => do
        let rhs ← parse_expression fuel 10
        expression_loop fuel minPrec
          (Expression.BinaryOperation BinaryOperator.And left rhs)
      | Token.Keyword Keyword.Or => do
        let rhs ← parse_expression fuel 15
        expression_loop fuel minPrec
          (Expression.BinaryOperation BinaryOperator.Or left rhs)
      | Token.Keyword Keyword.Asc =>
        expression_loop fuel minPrec
          (Expression.UnaryOperation UnaryOperator.Asc left)
      | Token.Keyword Keyword.Desc =>
        expression_loop fuel minPrec
          (Expression.UnaryOperation UnaryOperator.Desc left)
      | Token.Equal => do
        let rhs ← parse_expression fuel 20
        expression_loop fuel minPrec
          (Expression.BinaryOperation BinaryOperator.Equal left rhs)
      | Token.NotEqual => do
        let rhs ← parse_expression fuel 20
        expression_loop fuel minPrec
          (Expression.BinaryOperation BinaryOperator.NotEqual left rhs)
      | Token.LessThan => do
        let rhs ← parse_expression fuel 20
        expression_loop fuel minPrec
          (Expression.BinaryOperation BinaryOperator.LessThan left rhs)
      | Token.GreaterThanOrEqual => do
        let rhs ← parse_expression fuel 20
        expression_loop fuel minPrec
          (Expression.BinaryOperation BinaryOperator.GreaterThanOrEqual left rhs)
      | Token.LessThanOrEqual => do
        let rhs ← parse_expression fuel 20
        expression_loop fuel minPrec
          (Expression.BinaryOperation BinaryOperator.LessThanOrEqual left rhs)
      | _ => pure left

end

/-- The comma-separated expression-list loop used twice by
`Parser::parse_select` (src/parser.rs lines 70-78 for the column list and
lines 100-108 for ORDER BY): parse one expression, push it, continue after
a comma. -/
def expr_comma_list (fuel : Nat) (acc : List Expression) : PM (List Expression) :=
  match fuel with
  | 0 => fun _ => .fuelOut
  | fuel + 1 => do
    let e ← parse_expression fuel 0
    let t ← peekT
    if t = Token.Comma then do
      let _ ← nextT
      expr_comma_list fuel (acc ++ [e])
    else pure (acc ++ [e])

/-- `Parser::parse_select` (src/parser.rs lines 67-119), entered after the
SELECT keyword has been consumed. -/
def parse_select (fuel : Nat) : PM Statement :=
  match fuel with
  | 0 => fun _ => .fuelOut
  | fuel + 1 => do
    let columns ← expr_comma_list fuel []
    expectT (Token.Keyword Keyword.From)
    let t ← nextT
    let table_name ←
      match t with
      | Token.Identifier s => pure s
      | _ => perr "Expected table name"
    let pk ← peekT
    let whereClause ←
      if pk = Token.Keyword Keyword.Where then do
        let _ ← nextT
        let e ← parse_expression fuel 0
        pure (some e)
      else pure none
    let pk2 ← peekT
    let orderby ←
      if pk2 = Token.Keyword Keyword.Order then do
        let _ ← nextT
        expectT (Token.Keyword Keyword.By)
        expr_comma_list fuel []
      else pure ([] : List Expression)
    expectT Token.Semicolon
    pure (Statement.Select columns table_name whereClause orderby)

/-- The per-column constraint loop of `Parser::parse_create_table`
(src/parser.rs lines 172-194). -/
def constraint_loop (fuel : Nat) (acc : List Constraint) : PM (List Constraint) :=
  match fuel with
  | 0 => fun _ => .fuelOut
  | fuel + 1 => do
    let t ← peekT
    match t with
    | Token.Keyword Keyword.Primary => do
      let _ ← nextT
      expectT (Token.Keyword Keyword.Key)
      constraint_loop fuel (acc ++ [Constraint.PrimaryKey])
    | Token.Keyword Keyword.Not => do
      let _ ← nextT
      expectT (Token.Keyword Keyword.Null)
      constraint_loop fuel (acc ++ [Constraint.NotNull])
    | Token.Keyword Keyword.Check => do
      let _ ← nextT
      expectT Token.LeftParentheses
      let e ← parse_expression fuel 0
      expectT Token.RightParentheses
      constraint_loop fuel (acc ++ [Constraint.Check e])
    | _ => pure acc

/-- The column-definition loop of `Parser::parse_create_table`
(src/parser.rs lines 134-208): a `)` ends the list (also immediately, and
also right after a comma); otherwise read name, type, constraints, then
require `,` or `)`. -/
def create_columns_loop (fuel : Nat) (acc : List TableColumn) : PM (List TableColumn) :=
  match fuel with
  | 0 => fun _ => .fuelOut
  | fuel + 1 => do
    let pk ← peekT
    if pk = Token.RightParentheses then do
      let _ ← nextT
      pure acc
    else do
      let t ← nextT
      let col_name ←
        match t with
        | Token.Identifier s => pure s
        | _ => perr "Expected column name"
      let tp ← peekT
      let col_type ←
        match tp with
        | Token.Keyword Keyword.Int => do
          let _ ← nextT
          pure DBType.Int
        | Token.Keyword Keyword.Bool => do
          let _ ← nextT
          pure DBType.Bool
        | Token.Keyword Keyword.Varchar => do
          let _ ← nextT
          expectT Token.LeftParentheses
          let n ← nextT
          let len ←
            match n with
            | Token.Number m => pure m
            | _ => perr "Expected VARCHAR length"
          expectT Token.RightParentheses
          pure (DBType.Varchar len)
        | _ => perr "Expected type"
      let constraints ← constraint_loop fuel []
      let acc2 := acc ++ [TableColumn.mk col_name col_type constraints]
      let d ← peekT
      match d with
      | Token.Comma => do
        let _ ← nextT
        create_columns_loop fuel acc2
      | Token.RightParentheses => do
        let _ ← nextT
        pure acc2
      | _ => perr "Expected comma or right parenthesis"

/-- `Parser::parse_create_table` (src/parser.rs lines 122-216), entered
after the CREATE keyword has been consumed. -/
def parse_create_table (fuel : Nat) : PM Statement :=
  match fuel with
  | 0 => fun _ => .fuelOut
  | fuel + 1 => do
    expectT (Token.Keyword Keyword.Table)
    let t ← nextT
    let table_name ←
      match t with
      | Token.Identifier s => pure s
      | _ => perr "Expected table name"
    expectT Token.LeftParentheses
    let columns ← create_columns_loop fuel []
    expectT Token.Semicolon
    pure (Statement.CreateTable table_name columns)

/-- `Parser::parse_statement` (src/parser.rs lines 52-64): dispatch on the
peeked first token. -/
def parse_statement (fuel : Nat) : PM Statement :=
  match fuel with
  | 0 => fun _ => .fuelOut
  | fuel + 1 => do
    let t ← peekT
    match t with
    | Token.Keyword Keyword.Select => do
      let _ ← nextT
      parse_select fuel
    | Token.Keyword Keyword.Create => do
      let _ ← nextT
      parse_create_table fuel
    | _ => perr "Expected SELECT or CREATE"

/-! ## Predicates and concrete inputs used by the claim theorems -/

/-- A parser run completed normally: it returned `Ok` or `Err` — it neither
panicked nor exhausted its fuel. -/
def completes {α : Type} (r : PRes α) : Prop :=
  (PRes.state? r).isSome = true

/-- State discipline of a parser computation: whenever it finishes with `Ok`
or `Err`, the token list is unchanged, the position index has not moved
backwards, and the invariant `pos ≤ tokens.len() - 1` is preserved. -/
def Pres {α : Type} (m : PM α) : Prop :=
  ∀ s s₂, (m s).state? = some s₂ →
    s₂.tokens = s.tokens ∧ s.pos ≤ s₂.pos ∧
      (s.pos + 1 ≤ s.tokens.length → s₂.pos + 1 ≤ s.tokens.length)

/-- `parse_statement` diverges on this state: the Rust original recurses
forever (aborting with a stack overflow), so the fuel embedding runs out of
fuel at every fuel value. -/
def parse_statement_diverges (s : Parser) : Prop :=
  ∀ fuel, parse_statement fuel s = PRes.fuelOut

/-- The token sequence of `SELECT 1 +` (no `;`): the clamped cursor makes
`parse_expression` consume the final `+` forever. -/
def c4_diverging_tokens : List Token :=
  [Token.Keyword Keyword.Select, Token.Number 1, Token.Plus]

/-- The token sequence of `SELECT a FROM t` (no terminating `;`). -/
def c4_nosemi_tokens : List Token :=
  [Token.Keyword Keyword.Select, Token.Identifier ['a'],
   Token.Keyword Keyword.From, Token.Identifier ['t']]

/-- Tokens of `1 + 2 * 3 ;`. -/
def c3_tokens_mul : List Token :=
  [Token.Number 1, Token.Plus, Token.Number 2, Token.Star, Token.Number 3,
   Token.Semicolon]

/-- Tokens of `NOT a AND b ;`. -/
def c3_tokens_not : List Token :=
  [Token.Keyword Keyword.Not, Token.Identifier ['a'],
   Token.Keyword Keyword.And, Token.Identifier ['b'], Token.Semicolon]

/-- Tokens of `a AND b OR c ;`. -/
def c3_tokens_or : List Token :=
  [Token.Identifier ['a'], Token.Keyword Keyword.And, Token.Identifier ['b'],
   Token.Keyword Keyword.Or, Token.Identifier ['c'], Token.Semicolon]

/-- Tokens of `1 - 2 - 3 ;`. -/
def c3_tokens_assoc : List Token :=
  [Token.Number 1, Token.Minus, Token.Number 2, Token.Minus, Token.Number 3,
   Token.Semicolon]

/-- Tokens of `- 1 * 2 ;`. -/
def c3_tokens_neg : List Token :=
  [Token.Minus, Token.Number 1, Token.Star, Token.Number 2, Token.Semicolon]

/-- Tokens of `CREATE TABLE t ();`. -/
def c8_tokens : List Token :=
  [Token.Keyword Keyword.Create, Token.Keyword Keyword.Table,
   Token.Identifier ['t'], Token.LeftParentheses, Token.RightParentheses,
   Token.Semicolon]

/-- Tokens of `CREATE TABLE t (a INT,);`. -/
def c10_tokens : List Token :=
  [Token.Keyword Keyword.Create, Token.Keyword Keyword.Table,
   Token.Identifier ['t'], Token.LeftParentheses, Token.Identifier ['a'],
   Token.Keyword Keyword.Int, Token.Comma, Token.RightParentheses,
   Token.Semicolon]

/-- Tokens of `SELECT a FROM t;`. -/
def c9_tokens : List Token :=
  [Token.Keyword Keyword.Select, Token.Identifier ['a'],
   Token.Keyword Keyword.From, Token.Identifier ['t'], Token.Semicolon]

/-- A trailing-garbage suffix appended after the `;` for the C9 witness. -/
def c9_suffix : List Token :=
  [Token.Number 7, Token.Keyword Keyword.Create]

/-- A computation that can only return `Ok` if the token list contains a
`;` token (because its success path runs `expect(Semicolon)`). -/
def OkRequiresSemi {α : Type} (m : PM α) : Prop :=
  ∀ s a s₂, m s = PRes.ok a s₂ → Token.Semicolon ∈ s.tokens

/-! ## Lockstep simulation predicates (for the trailing-token claim) -/


/-- Strict lockstep: an `Ok` run on `⟨ts, p⟩` is reproduced verbatim on the
extended token list `ts ++ sfx`, ending at the same position. -/
def Sim (ts sfx : List Token) {α : Type} (m : PM α) : Prop :=
  ∀ p a s₂, p + 1 ≤ ts.length → m ⟨ts, p⟩ = PRes.ok a s₂ →
    m ⟨ts ++ sfx, p⟩ = PRes.ok a ⟨ts ++ sfx, s₂.pos⟩ ∧
      s₂.pos + 1 ≤ ts.length ∧ s₂.tokens = ts

/-- Lockstep under the extra knowledge that the token at the current
position is `t` (from a preceding peek). -/
def SimKnown (ts sfx : List Token) (t : Token) {α : Type} (m : PM α) : Prop :=
  ∀ p a s₂, p + 1 ≤ ts.length → ts.get? p = some t → m ⟨ts, p⟩ = PRes.ok a s₂ →
    m ⟨ts ++ sfx, p⟩ = PRes.ok a ⟨ts ++ sfx, s₂.pos⟩ ∧
      s₂.pos + 1 ≤ ts.length ∧ s₂.tokens = ts

/-- Existential-tail simulation: an `Ok` run on `⟨ts, p⟩` is reproduced on
`ts ++ sfx` with the same value, at some (possibly different) final
position.  Used for the suffix of a parse that consumes the final `;`. -/
def SimE (ts sfx : List Token) {α : Type} (m : PM α) : Prop :=
  ∀ p a s₂, p + 1 ≤ ts.length → m ⟨ts, p⟩ = PRes.ok a s₂ →
    ∃ q, m ⟨ts ++ sfx, p⟩ = PRes.ok a ⟨ts ++ sfx, q⟩

/-- `SimE` under the knowledge that the token at the current position is
`t`. -/
def SimKnownE (ts sfx : List Token) (t : Token) {α : Type} (m : PM α) : Prop :=
  ∀ p a s₂, p + 1 ≤ ts.length → ts.get? p = some t → m ⟨ts, p⟩ = PRes.ok a s₂ →
    ∃ q, m ⟨ts ++ sfx, p⟩ = PRes.ok a ⟨ts ++ sfx, q⟩

/-! ## Basic lemmas about the result monad -/

theorem bind_apply {α β : Type} (m : PM α) (f : α → PM β) (s : Parser) :
    (m >>= f) s =
      match m s with
      | .ok a s' => f a s'
      | .err e s' => .err e s'
      | .panic => .panic
      | .fuelOut => .fuelOut := rfl

theorem pure_apply {α : Type} (a : α) (s : Parser) : (pure a : PM α) s = .ok a s := rfl

theorem pure_bind_apply {α β : Type} (a : α) (k : α → PM β) (s : Parser) :
    ((pure a : PM α) >>= k) s = k a s := rfl

theorem perr_bind_apply {α β : Type} (msg : String) (k : α → PM β) (s : Parser) :
    ((perr msg : PM α) >>= k) s = .err msg s := rfl

theorem bind_eq_ok {α β : Type} {m : PM α} {f : α → PM β} {s : Parser}
    {b : β} {s₂ : Parser} :
    (m >>= f) s = .ok b s₂ ↔ ∃ a s₁, m s = .ok a s₁ ∧ f a s₁ = .ok b s₂ := by
  rw [bind_apply]
  cases hr : m s <;> simp
  constructor
  · intro h; exact ⟨_, _, ⟨rfl, rfl⟩, h⟩
  · rintro ⟨a', s₁', ⟨rfl, rfl⟩, h2⟩; exact h2

theorem peekT_eq_ok {s : Parser} {t : Token} {s₁ : Parser} :
    peekT s = .ok t s₁ ↔ s.tokens.get? s.pos = some t ∧ s₁ = s := by
  unfold peekT
  cases hg : s.tokens.get? s.pos <;> simp [hg, eq_comm]

theorem nextT_eq_ok {s : Parser} {t : Token} {s₁ : Parser} :
    nextT s = .ok t s₁ ↔ s.tokens.get? s.pos = some t ∧
      s₁ = if s.pos < s.tokens.length - 1 then
        { tokens := s.tokens, pos := s.pos + 1 } else s := by
  unfold nextT
  cases hg : s.tokens.get? s.pos <;> simp [hg, eq_comm]

/-! ## Tokenizer lemmas: consumption bounds and string-literal reading -/

theorem read_digits_length : ∀ cs : List Char, (read_digits cs).2.length ≤ cs.length := by
  intro cs
  induction cs with
  | nil => simp [read_digits]
  | cons c cs ih =>
    simp only [read_digits]
    split
    · simpa using Nat.le_succ_of_le ih
    · simp

theorem read_digits_cons_digit {c : Char} (h : c.isDigit = true) (cs : List Char) :
    (read_digits (c :: cs)).2 = (read_digits cs).2 := by
  simp [read_digits, h]

theorem read_string_go_length : ∀ (cs : List Char) (q : Char) (acc : List Char),
    (read_string_go q acc cs).2.length ≤ cs.length := by
  intro cs
  induction cs with
  | nil => intro q acc; simp [read_string_go]
  | cons c cs ih =>
    intro q acc
    simp only [read_string_go]
    split
    · simp
    · exact Nat.le_succ_of_le (ih q (acc ++ [c]))

theorem read_string_go_ne_eof : ∀ (cs : List Char) (q : Char) (acc : List Char),
    (read_string_go q acc cs).1 ≠ Token.Eof := by
  intro cs
  induction cs with
  | nil => intro q acc; simp [read_string_go]
  | cons c cs ih =>
    intro q acc
    simp only [read_string_go]
    split
    · simp
    · exact ih q (acc ++ [c])

theorem read_word_chars_length : ∀ cs : List Char, (read_word_chars cs).2.length ≤ cs.length := by
  intro cs
  induction cs with
  | nil => simp [read_word_chars]
  | cons c cs ih =>
    simp only [read_word_chars]
    split
    · simpa using Nat.le_succ_of_le ih
    · simp

theorem read_word_chars_cons {c : Char} (h : c.isAlphanum = true ∨ c = '_') (cs : List Char) :
    (read_word_chars (c :: cs)).2 = (read_word_chars cs).2 := by
  simp [read_word_chars, h]

theorem classify_word_ne_eof (w : List Char) : classify_word w ≠ Token.Eof := by
  unfold classify_word
  split <;> simp

theorem next_token_dispatch_consumes :
    ∀ (c : Char) (cs : List Char) (t : Token) (rest : List Char),
      next_token_dispatch c cs = some (t, rest) →
      rest.length ≤ cs.length ∧ t ≠ Token.Eof := by
  intro c cs t rest h
  unfold next_token_dispatch at h
  by_cases h1 : c = '+'
  · rw [if_pos h1] at h; cases h; exact ⟨le_refl _, by simp⟩
  rw [if_neg h1] at h
  by_cases h2 : c = '-'
  · rw [if_pos h2] at h; cases h; exact ⟨le_refl _, by simp⟩
  rw [if_neg h2] at h
  by_cases h3 : c = '*'
  · rw [if_pos h3] at h; cases h; exact ⟨le_refl _, by simp⟩
  rw [if_neg h3] at h
  by_cases h4 : c = '/'
  · rw [if_pos h4] at h; cases h; exact ⟨le_refl _, by simp⟩
  rw [if_neg h4] at h
  by_cases h5 : c = '('
  · rw [if_pos h5] at h; cases h; exact ⟨le_refl _, by simp⟩
  rw [if_neg h5] at h
  by_cases h6 : c = ')'
  · rw [if_pos h6] at h; cases h; exact ⟨le_refl _, by simp⟩
  rw [if_neg h6] at h
  by_cases h7 : c = ','
  · rw [if_pos h7] at h; cases h; exact ⟨le_refl _, by simp⟩
  rw [if_neg h7] at h
  by_cases h8 : c = ';'
  · rw [if_pos h8] at h; cases h; exact ⟨le_refl _, by simp⟩
  rw [if_neg h8] at h
  by_cases h9 : c = '='
  · rw [if_pos h9] at h; cases h; exact ⟨le_refl _, by simp⟩
  rw [if_neg h9] at h
  by_cases h10 : c = '>'
  · rw [if_pos h10] at h
    split at h
    · cases h
      exact ⟨by simp, by simp⟩
    · cases h; exact ⟨le_refl _, by simp⟩
  rw [if_neg h10] at h
  by_cases h11 : c = '<'
  · rw [if_pos h11] at h
    split at h
    · cases h
      exact ⟨by simp, by simp⟩
    · cases h; exact ⟨le_refl _, by simp⟩
  rw [if_neg h11] at h
  by_cases h12 : c = '!'
  · rw [if_pos h12] at h
    split at h
    · cases h
      exact ⟨by simp, by simp⟩
    · cases h; exact ⟨le_refl _, by simp⟩
  rw [if_neg h12] at h
  by_cases h13 : c = '"' ∨ c = '\''
  · rw [if_pos h13] at h
    simp only [Option.some.injEq] at h
    have h1' : t = (read_string c cs).1 := by rw [h]
    have h2' : rest = (read_string c cs).2 := by rw [h]
    subst h1'; subst h2'
    exact ⟨read_string_go_length cs c [], read_string_go_ne_eof cs c []⟩
  rw [if_neg h13] at h
  by_cases h14 : c.isDigit
  · rw [if_pos h14] at h
    unfold read_number at h
    split at h
    · simp only [Option.some.injEq, Prod.mk.injEq] at h
      obtain ⟨h1', h2'⟩ := h
      subst h1'; subst h2'
      rw [read_digits_cons_digit h14]
      exact ⟨read_digits_length cs, by simp⟩
    · cases h
  rw [if_neg h14] at h
  by_cases h15 : c.isAlpha ∨ c = '_'
  · rw [if_pos h15] at h
    simp only [Option.some.injEq] at h
    have h1' : t = (read_word (c :: cs)).1 := by rw [h]
    have h2' : rest = (read_word (c :: cs)).2 := by rw [h]
    subst h1'; subst h2'
    unfold read_word
    have hc : c.isAlphanum = true ∨ c = '_' := by
      rcases h15 with ha | hu
      · left; simp [Char.isAlphanum, ha]
      · right; exact hu
    constructor
    · show (read_word_chars (c :: cs)).2.length ≤ cs.length
      rw [read_word_chars_cons hc]
      exact read_word_chars_length cs
    · exact classify_word_ne_eof _
  rw [if_neg h15] at h
  cases h
  exact ⟨le_refl _, by simp⟩

theorem next_token_consumes : ∀ (cs : List Char) (t : Token) (rest : List Char),
    next_token cs = some (t, rest) →
    rest.length ≤ cs.length ∧ (t ≠ Token.Eof → rest.length < cs.length) := by
  intro cs
  induction cs with
  | nil =>
    intro t rest h
    cases h
    exact ⟨le_refl _, fun hne => absurd rfl hne⟩
  | cons c cs ih =>
    intro t rest h
    rw [next_token] at h
    split at h
    · obtain ⟨h1, _⟩ := ih t rest h
      exact ⟨Nat.le_succ_of_le h1, fun _ => Nat.lt_succ_of_le h1⟩
    · obtain ⟨h1, _⟩ := next_token_dispatch_consumes c cs t rest h
      exact ⟨Nat.le_succ_of_le h1, fun _ => Nat.lt_succ_of_le h1⟩

theorem tokenize_go_complete : ∀ (fuel : Nat) (cs : List Char), cs.length < fuel →
    tokenize_go fuel cs ≠ LexResult.fuelOut ∧
    ∀ ts, tokenize_go fuel cs = LexResult.ok ts →
      ts.length ≤ cs.length ∧ Token.Eof ∉ ts := by
  intro fuel
  induction fuel with
  | zero => intro cs hlen; omega
  | succ f ih =>
    intro cs hlen
    cases hnt : next_token cs with
    | none => rw [tokenize_go, hnt]; exact ⟨by simp, by simp⟩
    | some p =>
      obtain ⟨t, rest⟩ := p
      rw [tokenize_go, hnt]
      dsimp only
      by_cases ht : t = Token.Eof
      · subst ht
        simp only [if_pos rfl]
        refine ⟨by simp, fun ts hts => ?_⟩
        cases hts
        exact ⟨Nat.zero_le _, by simp⟩
      · rw [if_neg ht]
        have hcons := (next_token_consumes cs t rest hnt).2 ht
        have hrest : rest.length < f := by omega
        obtain ⟨hnf, hok⟩ := ih rest hrest
        cases hgo : tokenize_go f rest with
        | fuelOut => exact absurd hgo hnf
        | panicked => exact ⟨by simp, by simp⟩
        | ok ts' =>
          obtain ⟨hl, he⟩ := hok ts' hgo
          refine ⟨by simp, fun ts hts => ?_⟩
          cases hts
          constructor
          · simp only [List.length_cons]; omega
          · simp only [List.mem_cons, not_or]
            exact ⟨fun hh => ht hh.symm, he⟩

theorem read_string_go_terminated (q : Char) :
    ∀ (content acc rest : List Char), q ∉ content →
      read_string_go q acc (content ++ q :: rest) = (Token.String (acc ++ content), rest) := by
  intro content
  induction content with
  | nil => intro acc rest h; simp [read_string_go]
  | cons c cs ih =>
    intro acc rest h
    rw [List.cons_append, read_string_go]
    rw [if_neg (by intro hc; exact h (hc ▸ List.mem_cons_self c cs))]
    rw [ih (acc ++ [c]) rest (fun hm => h (List.mem_cons_of_mem c hm))]
    simp

theorem read_string_go_unterminated (q : Char) :
    ∀ (content acc : List Char), q ∉ content →
      read_string_go q acc content = (Token.Invalid q, []) := by
  intro content
  induction content with
  | nil => intro acc h; rfl
  | cons c cs ih =>
    intro acc h
    rw [read_string_go]
    rw [if_neg (by intro hc; exact h (hc ▸ List.mem_cons_self c cs))]
    exact ih _ (fun hm => h (List.mem_cons_of_mem c hm))

/-! ## State-discipline (`Pres`) lemmas for every parser operation -/

theorem pres_pure {α : Type} (a : α) : Pres (pure a : PM α) := by
  intro s s₂ h
  simp only [pure, PRes.state?, Option.some.injEq] at h
  subst h; exact ⟨rfl, le_refl _, fun h => h⟩

theorem pres_perr {α : Type} (msg : String) : Pres (perr msg : PM α) := by
  intro s s₂ h
  simp only [perr, PRes.state?, Option.some.injEq] at h
  subst h; exact ⟨rfl, le_refl _, fun h => h⟩

theorem pres_peekT : Pres peekT := by
  intro s s₂ h
  unfold peekT at h
  cases hg : s.tokens.get? s.pos with
  | none => rw [hg] at h; simp [PRes.state?] at h
  | some t =>
    rw [hg] at h
    simp only [PRes.state?, Option.some.injEq] at h
    subst h; exact ⟨rfl, le_refl _, fun h => h⟩

theorem pres_nextT : Pres nextT := by
  intro s s₂ h
  unfold nextT at h
  cases hg : s.tokens.get? s.pos with
  | none => rw [hg] at h; simp [PRes.state?] at h
  | some t =>
    rw [hg] at h
    simp only [PRes.state?, Option.some.injEq] at h
    have hlt : s.pos < s.tokens.length := by
      rcases List.get?_eq_some.mp hg with ⟨hl, _⟩; exact hl
    subst h
    by_cases hc : s.pos < s.tokens.length - 1
    · rw [if_pos hc]; refine ⟨rfl, ?_, ?_⟩ <;> dsimp only <;> omega
    · rw [if_neg hc]; exact ⟨rfl, le_refl _, fun h => h⟩

theorem pres_bind {α β : Type} {m : PM α} {f : α → PM β}
    (hm : Pres m) (hf : ∀ a, Pres (f a)) : Pres (m >>= f) := by
  intro s s₂ h
  have hb : (m >>= f) s = PM.bind m f s := rfl
  rw [hb] at h
  unfold PM.bind at h
  cases hr : m s with
  | ok a s₁ =>
    rw [hr] at h
    have h1 := hm s s₁ (by rw [hr]; rfl)
    have h2 := (hf a) s₁ s₂ h
    refine ⟨h2.1.trans h1.1, h1.2.1.trans h2.2.1, fun hlen => ?_⟩
    have := h2.2.2 (by rw [h1.1]; exact h1.2.2 hlen)
    rw [h1.1] at this
    exact this
  | err e s₁ =>
    rw [hr] at h
    simp only [PRes.state?, Option.some.injEq] at h
    subst h
    exact hm s s₁ (by rw [hr]; rfl)
  | panic => rw [hr] at h; simp [PRes.state?] at h
  | fuelOut => rw [hr] at h; simp [PRes.state?] at h

theorem pres_expectT (t : Token) : Pres (expectT t) := by
  unfold expectT
  refine pres_bind pres_peekT (fun a => ?_)
  split
  · exact pres_bind pres_nextT (fun _ => pres_pure _)
  · exact pres_perr _

theorem pres_pe_el : ∀ fuel,
    (∀ mp, Pres (parse_expression fuel mp)) ∧
    (∀ mp left, Pres (expression_loop fuel mp left)) := by
  intro fuel
  induction fuel with
  | zero =>
    constructor
    · intro mp s s₂ h; simp [parse_expression, PRes.state?] at h
    · intro mp left s s₂ h; simp [expression_loop, PRes.state?] at h
  | succ f ih =>
    constructor
    · intro mp
      simp only [parse_expression]
      refine pres_bind pres_nextT (fun t => ?_)
      repeat' first
        | exact pres_nextT
        | exact pres_peekT
        | exact pres_pure _
        | exact pres_perr _
        | exact pres_expectT _
        | exact ih.1 _
        | exact ih.2 _ _
        | refine pres_bind ?_ (fun _ => ?_)
        | split
    · intro mp left
      simp only [expression_loop]
      refine pres_bind pres_peekT (fun t => ?_)
      repeat' first
        | exact pres_nextT
        | exact pres_peekT
        | exact pres_pure _
        | exact pres_perr _
        | exact pres_expectT _
        | exact ih.1 _
        | exact ih.2 _ _
        | refine pres_bind ?_ (fun _ => ?_)
        | split

theorem pres_parse_expression (fuel mp : Nat) : Pres (parse_expression fuel mp) :=
  (pres_pe_el fuel).1 mp

theorem pres_expression_loop (fuel mp : Nat) (left : Expression) :
    Pres (expression_loop fuel mp left) :=
  (pres_pe_el fuel).2 mp left

theorem pres_expr_comma_list : ∀ fuel acc, Pres (expr_comma_list fuel acc) := by
  intro fuel
  induction fuel with
  | zero => intro acc s s₂ h; simp [expr_comma_list, PRes.state?] at h
  | succ f ih =>
    intro acc
    simp only [expr_comma_list]
    repeat' first
      | exact pres_nextT
      | exact pres_peekT
      | exact pres_pure _
      | exact pres_perr _
      | exact pres_expectT _
      | exact pres_parse_expression _ _
      | exact ih _
      | refine pres_bind ?_ (fun _ => ?_)
      | split

theorem pres_parse_select : ∀ fuel, Pres (parse_select fuel) := by
  intro fuel
  cases fuel with
  | zero => intro s s₂ h; simp [parse_select, PRes.state?] at h
  | succ f =>
    simp only [parse_select]
    repeat' first
      | exact pres_nextT
      | exact pres_peekT
      | exact pres_pure _
      | exact pres_perr _
      | exact pres_expectT _
      | exact pres_parse_expression _ _
      | exact pres_expr_comma_list _ _
      | refine pres_bind ?_ (fun _ => ?_)
      | split

theorem pres_constraint_loop : ∀ fuel acc, Pres (constraint_loop fuel acc) := by
  intro fuel
  induction fuel with
  | zero => intro acc s s₂ h; simp [constraint_loop, PRes.state?] at h
  | succ f ih =>
    intro acc
    simp only [constraint_loop]
    repeat' first
      | exact pres_nextT
      | exact pres_peekT
      | exact pres_pure _
      | exact pres_perr _
      | exact pres_expectT _
      | exact pres_parse_expression _ _
      | exact ih _
      | refine pres_bind ?_ (fun _ => ?_)
      | split

theorem pres_create_columns_loop : ∀ fuel acc, Pres (create_columns_loop fuel acc) := by
  intro fuel
  induction fuel with
  | zero => intro acc s s₂ h; simp [create_columns_loop, PRes.state?] at h
  | succ f ih =>
    intro acc
    simp only [create_columns_loop]
    repeat' first
      | exact pres_nextT
      | exact pres_peekT
      | exact pres_pure _
      | exact pres_perr _
      | exact pres_expectT _
      | exact pres_parse_expression _ _
      | exact pres_constraint_loop _ _
      | exact ih _
      | refine pres_bind ?_ (fun _ => ?_)
      | split

theorem pres_parse_create_table : ∀ fuel, Pres (parse_create_table fuel) := by
  intro fuel
  cases fuel with
  | zero => intro s s₂ h; simp [parse_create_table, PRes.state?] at h
  | succ f =>
    simp only [parse_create_table]
    repeat' first
      | exact pres_nextT
      | exact pres_peekT
      | exact pres_pure _
      | exact pres_perr _
      | exact pres_expectT _
      | exact pres_create_columns_loop _ _
      | refine pres_bind ?_ (fun _ => ?_)
      | split

theorem pres_parse_statement : ∀ fuel, Pres (parse_statement fuel) := by
  intro fuel
  cases fuel with
  | zero => intro s s₂ h; simp [parse_statement, PRes.state?] at h
  | succ f =>
    simp only [parse_statement]
    repeat' first
      | exact pres_nextT
      | exact pres_peekT
      | exact pres_pure _
      | exact pres_perr _
      | exact pres_parse_select _
      | exact pres_parse_create_table _
      | refine pres_bind ?_ (fun _ => ?_)
      | split

/-! ## Divergence of the parser on `SELECT 1 +` (clamped cursor, no `;`) -/

theorem pe_diverges : ∀ fuel minPrec,
    parse_expression fuel minPrec ⟨c4_diverging_tokens, 2⟩ = PRes.fuelOut := by
  intro fuel
  induction fuel with
  | zero => intro minPrec; rfl
  | succ f ih =>
    intro minPrec
    have ih' : parse_expression f 100
        ⟨[Token.Keyword Keyword.Select, Token.Number 1, Token.Plus], 2⟩ = PRes.fuelOut := ih 100
    simp [parse_expression, bind_apply, nextT, c4_diverging_tokens, ih']

theorem el_diverges : ∀ fuel left,
    expression_loop fuel 0 left ⟨c4_diverging_tokens, 2⟩ = PRes.fuelOut := by
  intro fuel left
  cases fuel with
  | zero => rfl
  | succ f =>
    have h : parse_expression f 25
        ⟨[Token.Keyword Keyword.Select, Token.Number 1, Token.Plus], 2⟩ = PRes.fuelOut :=
      pe_diverges f 25
    simp [expression_loop, bind_apply, nextT, peekT, tokenPrecedence, c4_diverging_tokens, h]

theorem pe1_diverges : ∀ fuel,
    parse_expression fuel 0 ⟨c4_diverging_tokens, 1⟩ = PRes.fuelOut := by
  intro fuel
  cases fuel with
  | zero => rfl
  | succ f =>
    have h : expression_loop f 0 (Expression.Number 1)
        ⟨[Token.Keyword Keyword.Select, Token.Number 1, Token.Plus], 2⟩ = PRes.fuelOut :=
      el_diverges f _
    simp [parse_expression, bind_apply, nextT, c4_diverging_tokens, h]

theorem ecl_diverges : ∀ fuel,
    expr_comma_list fuel [] ⟨c4_diverging_tokens, 1⟩ = PRes.fuelOut := by
  intro fuel
  cases fuel with
  | zero => rfl
  | succ f =>
    have h : parse_expression f 0
        ⟨[Token.Keyword Keyword.Select, Token.Number 1, Token.Plus], 1⟩ = PRes.fuelOut :=
      pe1_diverges f
    simp [expr_comma_list, bind_apply, c4_diverging_tokens, h]

theorem psel_diverges : ∀ fuel,
    parse_select fuel ⟨c4_diverging_tokens, 1⟩ = PRes.fuelOut := by
  intro fuel
  cases fuel with
  | zero => rfl
  | succ f =>
    have h : expr_comma_list f []
        ⟨[Token.Keyword Keyword.Select, Token.Number 1, Token.Plus], 1⟩ = PRes.fuelOut :=
      ecl_diverges f
    simp [parse_select, bind_apply, c4_diverging_tokens, h]

/-! ## A successful parse must have consumed a `;` -/

theorem oks_perr {α : Type} (msg : String) : OkRequiresSemi (perr msg : PM α) := by
  intro s a s₂ h
  simp [perr] at h

theorem oks_bind_left {α β : Type} {m : PM α} {f : α → PM β}
    (hm : OkRequiresSemi m) : OkRequiresSemi (m >>= f) := by
  intro s a s₂ h
  obtain ⟨b, s₁, h1, _⟩ := bind_eq_ok.mp h
  exact hm s b s₁ h1

theorem oks_bind_right {α β : Type} {m : PM α} {f : α → PM β}
    (hm : Pres m) (hf : ∀ a, OkRequiresSemi (f a)) : OkRequiresSemi (m >>= f) := by
  intro s a s₂ h
  obtain ⟨b, s₁, h1, h2⟩ := bind_eq_ok.mp h
  have ht : s₁.tokens = s.tokens := (hm s s₁ (by rw [h1]; rfl)).1
  have := hf b s₁ a s₂ h2
  rwa [ht] at this

theorem oks_expect_semi : OkRequiresSemi (expectT Token.Semicolon) := by
  intro s a s₂ h
  unfold expectT at h
  obtain ⟨t, s₁, h1, h2⟩ := bind_eq_ok.mp h
  obtain ⟨hget, rfl⟩ := peekT_eq_ok.mp h1
  by_cases ht : t = Token.Semicolon
  · subst ht
    exact List.get?_mem hget
  · rw [if_neg ht] at h2
    simp [perr] at h2

theorem oks_parse_select : ∀ fuel, OkRequiresSemi (parse_select fuel) := by
  intro fuel
  cases fuel with
  | zero => intro s a s₂ h; cases h
  | succ f =>
    simp only [parse_select]
    repeat' first
      | exact oks_bind_left oks_expect_semi
      | exact oks_perr _
      | refine oks_bind_right ?_ (fun _ => ?_)
      | exact pres_nextT
      | exact pres_peekT
      | exact pres_pure _
      | exact pres_perr _
      | exact pres_expectT _
      | exact pres_parse_expression _ _
      | exact pres_expr_comma_list _ _
      | refine pres_bind ?_ (fun _ => ?_)
      | split

theorem oks_parse_create_table : ∀ fuel, OkRequiresSemi (parse_create_table fuel) := by
  intro fuel
  cases fuel with
  | zero => intro s a s₂ h; cases h
  | succ f =>
    simp only [parse_create_table]
    repeat' first
      | exact oks_bind_left oks_expect_semi
      | exact oks_perr _
      | refine oks_bind_right ?_ (fun _ => ?_)
      | exact pres_nextT
      | exact pres_peekT
      | exact pres_pure _
      | exact pres_perr _
      | exact pres_expectT _
      | exact pres_create_columns_loop _ _
      | refine pres_bind ?_ (fun _ => ?_)
      | split

theorem oks_parse_statement : ∀ fuel, OkRequiresSemi (parse_statement fuel) := by
  intro fuel
  cases fuel with
  | zero => intro s a s₂ h; cases h
  | succ f =>
    simp only [parse_statement]
    repeat' first
      | exact oks_perr _
      | refine oks_bind_right ?_ (fun _ => ?_)
      | exact oks_parse_select _
      | exact oks_parse_create_table _
      | exact pres_nextT
      | exact pres_peekT
      | split

/-! ## Termination and panic-freedom on sequences ending with `;` -/

theorem completes_of_err {α : Type} (msg : String) (s : Parser) :
    completes (PRes.err msg s : PRes α) := rfl

theorem completes_pure {α : Type} (a : α) (s : Parser) : completes ((pure a : PM α) s) := rfl

theorem completes_bind {α β : Type} {m : PM α} {f : α → PM β} {s : Parser}
    (hm : completes (m s)) (hf : ∀ a s₁, m s = PRes.ok a s₁ → completes ((f a) s₁)) :
    completes ((m >>= f) s) := by
  rw [bind_apply]
  cases hr : m s with
  | ok a s₁ => exact hf a s₁ hr
  | err e s₁ => exact completes_of_err e s₁
  | panic => rw [hr] at hm; cases hm
  | fuelOut => rw [hr] at hm; cases hm

theorem completes_peekT {s : Parser} (h : s.pos < s.tokens.length) :
    completes (peekT s) := by
  unfold peekT
  cases hg : s.tokens.get? s.pos with
  | none => rw [List.get?_eq_none] at hg; omega
  | some t => rfl

theorem completes_nextT {s : Parser} (h : s.pos < s.tokens.length) :
    completes (nextT s) := by
  unfold nextT
  cases hg : s.tokens.get? s.pos with
  | none => rw [List.get?_eq_none] at hg; omega
  | some t => rfl

theorem completes_expectT {s : Parser} (h : s.pos < s.tokens.length) (e : Token) :
    completes (expectT e s) := by
  unfold expectT
  refine completes_bind (completes_peekT h) (fun t s₁ h₁ => ?_)
  obtain ⟨hget, rfl⟩ := peekT_eq_ok.mp h₁
  split
  · exact completes_bind (completes_nextT h) (fun _ _ _ => completes_pure _ _)
  · exact rfl

theorem pos_lt_of_get_ne_semi {ts : List Token} {p : Nat} {t : Token}
    (hlast : ts.get? (ts.length - 1) = some Token.Semicolon)
    (hget : ts.get? p = some t) (hne : t ≠ Token.Semicolon) :
    p < ts.length - 1 := by
  have hp : p < ts.length := by
    rcases List.get?_eq_some.mp hget with ⟨hl, _⟩; exact hl
  by_contra hc
  have he : p = ts.length - 1 := by omega
  subst he
  rw [hget] at hlast
  exact hne (Option.some.inj hlast)

/-- Chain step: bind through a `Pres` computation, handing the continuation
the preserved facts at the intermediate state. -/
theorem completes_bind_pres {α β : Type} {m : PM α} {f : α → PM β} {s : Parser}
    (hmp : Pres m) (hm : completes (m s))
    (hlast : s.tokens.get? (s.tokens.length - 1) = some Token.Semicolon)
    (hf : ∀ a s₁, m s = PRes.ok a s₁ →
      s₁.tokens.length = s.tokens.length → s.pos ≤ s₁.pos →
      (s.pos + 1 ≤ s.tokens.length → s₁.pos + 1 ≤ s₁.tokens.length) →
      s₁.tokens.get? (s₁.tokens.length - 1) = some Token.Semicolon →
      completes ((f a) s₁)) :
    completes ((m >>= f) s) := by
  refine completes_bind hm (fun a s₁ h₁ => ?_)
  have hp := hmp s s₁ (by rw [h₁]; rfl)
  refine hf a s₁ h₁ (by rw [hp.1]) hp.2.1 (fun hi => ?_) (by rw [hp.1]; exact hlast)
  rw [hp.1]; exact hp.2.2 hi

theorem pe_el_total : ∀ fuel : Nat,
    (∀ (mp : Nat) (s : Parser),
      s.tokens.get? (s.tokens.length - 1) = some Token.Semicolon →
      s.pos + 1 ≤ s.tokens.length →
      2 * (s.tokens.length - s.pos) ≤ fuel →
      completes (parse_expression fuel mp s)) ∧
    (∀ (mp : Nat) (left : Expression) (s : Parser),
      s.tokens.get? (s.tokens.length - 1) = some Token.Semicolon →
      s.pos + 1 ≤ s.tokens.length →
      2 * (s.tokens.length - s.pos) + 1 ≤ fuel →
      completes (expression_loop fuel mp left s)) := by
  intro fuel
  induction fuel with
  | zero =>
    constructor
    · intro mp s _ hpos hfuel; omega
    · intro mp left s _ hpos hfuel; omega
  | succ f ih =>
    constructor
    · intro mp s hlast hpos hfuel
      simp only [parse_expression]
      refine completes_bind (completes_nextT (by omega)) (fun t s₁ h₁ => ?_)
      obtain ⟨hget, hs₁⟩ := nextT_eq_ok.mp h₁
      by_cases hcl : s.pos < s.tokens.length - 1
      · rw [if_pos hcl] at hs₁
        subst hs₁
        have harm : ∀ (k : Nat) (g : Expression → Expression),
            completes ((parse_expression f k >>= fun rhs =>
              (pure (g rhs) : PM Expression) >>= fun y =>
                expression_loop f mp y) { tokens := s.tokens, pos := s.pos + 1 }) := by
          intro k g
          refine completes_bind
            (ih.1 k _ (by simpa using hlast) (by dsimp only; omega) (by dsimp only; omega))
            (fun rhs s₂ h₂ => ?_)
          have hp := pres_parse_expression f k _ s₂ (by rw [h₂]; rfl)
          rw [pure_bind_apply]
          refine ih.2 mp _ s₂ ?_ ?_ ?_
          · rw [hp.1]; simpa using hlast
          · rw [hp.1]; exact hp.2.2 (by dsimp only; omega)
          · have h1 := hp.2.1
            have h2 := hp.2.2 (by dsimp only; omega)
            rw [hp.1]
            dsimp only at h1 h2 ⊢
            omega
        cases t with
        | Number n =>
          (try dsimp only); rw [pure_bind_apply]
          exact ih.2 mp _ _ (by simpa using hlast) (by dsimp only; omega) (by dsimp only; omega)
        | Identifier w =>
          (try dsimp only); rw [pure_bind_apply]
          exact ih.2 mp _ _ (by simpa using hlast) (by dsimp only; omega) (by dsimp only; omega)
        | String w =>
          (try dsimp only); rw [pure_bind_apply]
          exact ih.2 mp _ _ (by simpa using hlast) (by dsimp only; omega) (by dsimp only; omega)
        | LeftParentheses =>
          dsimp only
          refine completes_bind
            (ih.1 0 _ (by simpa using hlast) (by dsimp only; omega) (by dsimp only; omega))
            (fun e s₂ h₂ => ?_)
          have hp := pres_parse_expression f 0 _ s₂ (by rw [h₂]; rfl)
          have hinv₂ : s₂.pos + 1 ≤ s₂.tokens.length := by
            rw [hp.1]; exact hp.2.2 (by dsimp only; omega)
          refine completes_bind (completes_expectT (by omega) _) (fun u s₃ h₃ => ?_)
          have hq := pres_expectT Token.RightParentheses s₂ s₃ (by rw [h₃]; rfl)
          rw [pure_bind_apply]
          refine ih.2 mp _ s₃ ?_ ?_ ?_
          · rw [hq.1, hp.1]; simpa using hlast
          · rw [hq.1]; exact hq.2.2 hinv₂
          · have ha := hp.2.1
            have hb := hq.2.1
            have hc := hq.2.2 hinv₂
            have hts₂ : s₂.tokens.length = s.tokens.length := by rw [hp.1]
            have hts₃ : s₃.tokens.length = s₂.tokens.length := by rw [hq.1]
            dsimp only at ha
            omega
        | Minus => exact harm 100 (fun rhs => Expression.UnaryOperation UnaryOperator.Minus rhs)
        | Plus => exact harm 100 (fun rhs => Expression.UnaryOperation UnaryOperator.Plus rhs)
        | Keyword k =>
          cases k with
          | True =>
            (try dsimp only); rw [pure_bind_apply]
            exact ih.2 mp _ _ (by simpa using hlast) (by dsimp only; omega) (by dsimp only; omega)
          | False =>
            (try dsimp only); rw [pure_bind_apply]
            exact ih.2 mp _ _ (by simpa using hlast) (by dsimp only; omega) (by dsimp only; omega)
          | Not => exact harm 100 (fun rhs => Expression.UnaryOperation UnaryOperator.Not rhs)
          | Select => (try dsimp only); rw [perr_bind_apply]; exact completes_of_err _ _
          | From => (try dsimp only); rw [perr_bind_apply]; exact completes_of_err _ _
          | Where => (try dsimp only); rw [perr_bind_apply]; exact completes_of_err _ _
          | Create => (try dsimp only); rw [perr_bind_apply]; exact completes_of_err _ _
          | Table => (try dsimp only); rw [perr_bind_apply]; exact completes_of_err _ _
          | Order => (try dsimp only); rw [perr_bind_apply]; exact completes_of_err _ _
          | By => (try dsimp only); rw [perr_bind_apply]; exact completes_of_err _ _
          | Asc => (try dsimp only); rw [perr_bind_apply]; exact completes_of_err _ _
          | Desc => (try dsimp only); rw [perr_bind_apply]; exact completes_of_err _ _
          | And => (try dsimp only); rw [perr_bind_apply]; exact completes_of_err _ _
          | Or => (try dsimp only); rw [perr_bind_apply]; exact completes_of_err _ _
          | Primary => (try dsimp only); rw [perr_bind_apply]; exact completes_of_err _ _
          | Key => (try dsimp only); rw [perr_bind_apply]; exact completes_of_err _ _
          | Check => (try dsimp only); rw [perr_bind_apply]; exact completes_of_err _ _
          | Int => (try dsimp only); rw [perr_bind_apply]; exact completes_of_err _ _
          | Bool => (try dsimp only); rw [perr_bind_apply]; exact completes_of_err _ _
          | Varchar => (try dsimp only); rw [perr_bind_apply]; exact completes_of_err _ _
          | Null => (try dsimp only); rw [perr_bind_apply]; exact completes_of_err _ _
        | _ => (try dsimp only); rw [perr_bind_apply]; exact completes_of_err _ _
      · rw [if_neg hcl] at hs₁
        have hpl : s.pos = s.tokens.length - 1 := by omega
        have ht : t = Token.Semicolon := by
          rw [hpl] at hget
          rw [hget] at hlast
          exact Option.some.inj hlast
        subst ht
        subst hs₁
        (try dsimp only); rw [perr_bind_apply]
        exact completes_of_err _ _
    · intro mp left s hlast hpos hfuel
      simp only [expression_loop]
      refine completes_bind (completes_peekT (by omega)) (fun t s₁ h₁ => ?_)
      obtain ⟨hget, hseq⟩ := peekT_eq_ok.mp h₁
      rw [hseq]
      split
      · exact completes_pure _ _
      · rename_i hprec
        have htne : t ≠ Token.Semicolon := by
          intro he; subst he; simp [tokenPrecedence] at hprec
        have hlt : s.pos < s.tokens.length - 1 := pos_lt_of_get_ne_semi hlast hget htne
        refine completes_bind (completes_nextT (by omega)) (fun tok s₂ h₂ => ?_)
        obtain ⟨hget₂, hs₂⟩ := nextT_eq_ok.mp h₂
        rw [if_pos hlt] at hs₂
        subst hs₂
        have harm : ∀ (k : Nat) (g : Expression → Expression),
            completes ((parse_expression f k >>= fun rhs =>
              (pure (g rhs) : PM Expression) >>= fun y =>
                expression_loop f mp y) { tokens := s.tokens, pos := s.pos + 1 }) := by
          intro k g
          refine completes_bind
            (ih.1 k _ (by simpa using hlast) (by dsimp only; omega) (by dsimp only; omega))
            (fun rhs s₃ h₃ => ?_)
          have hp := pres_parse_expression f k _ s₃ (by rw [h₃]; rfl)
          rw [pure_bind_apply]
          refine ih.2 mp _ s₃ ?_ ?_ ?_
          · rw [hp.1]; simpa using hlast
          · rw [hp.1]; exact hp.2.2 (by dsimp only; omega)
          · have h1 := hp.2.1
            have h2 := hp.2.2 (by dsimp only; omega)
            rw [hp.1]
            dsimp only at h1 h2 ⊢
            omega
        have hloopstep : completes
            (expression_loop f mp (Expression.UnaryOperation UnaryOperator.Asc left)
              { tokens := s.tokens, pos := s.pos + 1 }) := by
          exact ih.2 mp _ _ (by simpa using hlast) (by dsimp only; omega) (by dsimp only; omega)
        cases tok with
        | Plus => exact harm 25 _
        | Minus => exact harm 25 _
        | Star => exact harm 30 _
        | Divide => exact harm 30 _
        | GreaterThan => exact harm 20 _
        | GreaterThanOrEqual => exact harm 20 _
        | LessThan => exact harm 20 _
        | LessThanOrEqual => exact harm 20 _
        | Equal => exact harm 20 _
        | NotEqual => exact harm 20 _
        | Keyword k =>
          cases k with
          | And => exact harm 10 _
          | Or => exact harm 15 _
          | Asc =>
            exact ih.2 mp _ _ (by simpa using hlast) (by dsimp only; omega) (by dsimp only; omega)
          | Desc =>
            exact ih.2 mp _ _ (by simpa using hlast) (by dsimp only; omega) (by dsimp only; omega)
          | _ => exact completes_pure _ _
        | _ => exact completes_pure _ _

theorem pe_total (fuel mp : Nat) (s : Parser)
    (hlast : s.tokens.get? (s.tokens.length - 1) = some Token.Semicolon)
    (hpos : s.pos + 1 ≤ s.tokens.length)
    (hfuel : 2 * (s.tokens.length - s.pos) ≤ fuel) :
    completes (parse_expression fuel mp s) :=
  (pe_el_total fuel).1 mp s hlast hpos hfuel

theorem ecl_total : ∀ (fuel : Nat) (acc : List Expression) (s : Parser),
    s.tokens.get? (s.tokens.length - 1) = some Token.Semicolon →
    s.pos + 1 ≤ s.tokens.length →
    2 * (s.tokens.length - s.pos) + 2 ≤ fuel →
    completes (expr_comma_list fuel acc s) := by
  intro fuel
  induction fuel with
  | zero => intro acc s _ hpos hfuel; omega
  | succ f ih =>
    intro acc s hlast hpos hfuel
    simp only [expr_comma_list]
    refine completes_bind (pe_total f 0 s hlast hpos (by omega)) (fun e s₁ h₁ => ?_)
    have hp := pres_parse_expression f 0 s s₁ (by rw [h₁]; rfl)
    have hts₁ : s₁.tokens.length = s.tokens.length := by rw [hp.1]
    have hlast₁ : s₁.tokens.get? (s₁.tokens.length - 1) = some Token.Semicolon := by
      rw [hp.1]; exact hlast
    have hinv₁ : s₁.pos + 1 ≤ s₁.tokens.length := by
      rw [hp.1]; exact hp.2.2 hpos
    refine completes_bind (completes_peekT (by omega)) (fun t s₂ h₂ => ?_)
    obtain ⟨hget, hseq⟩ := peekT_eq_ok.mp h₂
    rw [hseq]
    split
    · rename_i hcomma
      subst hcomma
      have hlt : s₁.pos < s₁.tokens.length - 1 :=
        pos_lt_of_get_ne_semi hlast₁ hget (by simp)
      refine completes_bind (completes_nextT (by omega)) (fun u s₃ h₃ => ?_)
      obtain ⟨hget₃, hs₃⟩ := nextT_eq_ok.mp h₃
      rw [if_pos hlt] at hs₃
      subst hs₃
      refine ih (acc ++ [e]) _ ?_ ?_ ?_
      · dsimp only; exact hlast₁
      · dsimp only; omega
      · dsimp only; omega
    · exact completes_pure _ _

theorem cl_total : ∀ (fuel : Nat) (acc : List Constraint) (s : Parser),
    s.tokens.get? (s.tokens.length - 1) = some Token.Semicolon →
    s.pos + 1 ≤ s.tokens.length →
    2 * (s.tokens.length - s.pos) + 2 ≤ fuel →
    completes (constraint_loop fuel acc s) := by
  intro fuel
  induction fuel with
  | zero => intro acc s _ hpos hfuel; omega
  | succ f ih =>
    intro acc s hlast hpos hfuel
    simp only [constraint_loop]
    refine completes_bind (completes_peekT (by omega)) (fun t s₁ h₁ => ?_)
    obtain ⟨hget, hseq⟩ := peekT_eq_ok.mp h₁
    rw [hseq]
    cases t
    case Keyword k =>
      cases k <;>
        first
        | exact completes_pure _ _
        | ((try dsimp only)
           have hlt : s.pos < s.tokens.length - 1 :=
             pos_lt_of_get_ne_semi hlast hget (by simp)
           refine completes_bind (completes_nextT (by omega)) (fun u s₂ h₂ => ?_)
           obtain ⟨hget₂, hs₂⟩ := nextT_eq_ok.mp h₂
           rw [if_pos hlt] at hs₂
           subst hs₂
           refine completes_bind_pres (pres_expectT _)
             (completes_expectT (by dsimp only; omega) _)
             (by dsimp only; exact hlast)
             (fun u₂ s₃ h₃ ht₃ hm₃ hi₃ hl₃ => ?_)
           dsimp only at ht₃ hm₃ hi₃
           have hi₃x := hi₃ (by omega)
           first
           | (exact ih _ s₃ hl₃ (by omega) (by omega))
           | (refine completes_bind_pres (pres_parse_expression f 0)
                (pe_total f 0 s₃ hl₃ (by omega) (by omega)) hl₃
                (fun e s₄ h₄ ht₄ hm₄ hi₄ hl₄ => ?_)
              have hi₄x := hi₄ (by omega)
              refine completes_bind_pres (pres_expectT _)
                (completes_expectT (by omega) _) hl₄
                (fun u₃ s₅ h₅ ht₅ hm₅ hi₅ hl₅ => ?_)
              have hi₅x := hi₅ (by omega)
              exact ih _ s₅ hl₅ (by omega) (by omega)))
    all_goals exact completes_pure _ _

theorem ccl_total : ∀ (fuel : Nat) (acc : List TableColumn) (s : Parser),
    s.tokens.get? (s.tokens.length - 1) = some Token.Semicolon →
    s.pos + 1 ≤ s.tokens.length →
    2 * (s.tokens.length - s.pos) + 3 ≤ fuel →
    completes (create_columns_loop fuel acc s) := by
  intro fuel
  induction fuel with
  | zero => intro acc s _ hpos hfuel; omega
  | succ f ih =>
    intro acc s hlast hpos hfuel
    simp only [create_columns_loop]
    refine completes_bind (completes_peekT (by omega)) (fun t s₁ h₁ => ?_)
    obtain ⟨hget, hseq⟩ := peekT_eq_ok.mp h₁
    rw [hseq]
    split
    · -- immediate ')'
      exact completes_bind (completes_nextT (by omega)) (fun _ _ _ => completes_pure _ _)
    · -- column definition
      refine completes_bind (completes_nextT (by omega)) (fun t₂ s₂ h₂ => ?_)
      obtain ⟨hget₂, hs₂⟩ := nextT_eq_ok.mp h₂
      -- wheither clamped or not: define the facts via Pres instead
      have hp₂ := pres_nextT s s₂ (by rw [h₂]; rfl)
      clear hs₂
      cases t₂
      case Identifier w =>
        (try dsimp only)
        rw [pure_bind_apply]
        -- column type dispatch
        refine completes_bind (completes_peekT (by
          rw [hp₂.1]; exact hp₂.2.2 hpos)) (fun t₃ s₃ h₃ => ?_)
        obtain ⟨hget₃, hseq₃⟩ := peekT_eq_ok.mp h₃
        rw [hseq₃]
        have hl₂ : s₂.tokens.get? (s₂.tokens.length - 1) = some Token.Semicolon := by
          rw [hp₂.1]; exact hlast
        have ht₂ : s₂.tokens.length = s.tokens.length := by rw [hp₂.1]
        have hi₂ : s₂.pos + 1 ≤ s₂.tokens.length := by rw [hp₂.1]; exact hp₂.2.2 hpos
        have hm₂ : s.pos ≤ s₂.pos := hp₂.2.1
        -- continuation after the type is parsed
        have hrest : ∀ (s₄ : Parser) (tp : DBType),
            s₄.tokens.get? (s₄.tokens.length - 1) = some Token.Semicolon →
            s₄.pos + 1 ≤ s₄.tokens.length →
            s₄.tokens.length = s.tokens.length →
            s.pos ≤ s₄.pos →
            completes (((constraint_loop f [] : PM (List Constraint)) >>= fun cst =>
              peekT >>= fun d =>
                (match d with
                | Token.Comma => nextT >>= fun _ =>
                    create_columns_loop f (acc ++ [TableColumn.mk w tp cst])
                | Token.RightParentheses => nextT >>= fun _ =>
                    pure (acc ++ [TableColumn.mk w tp cst])
                | _ => perr "Expected comma or right parenthesis")) s₄) := by
          intro s₄ tp hl₄ hi₄ ht₄ hm₄
          refine completes_bind_pres (pres_constraint_loop f [])
            (cl_total f [] s₄ hl₄ hi₄ (by omega)) hl₄
            (fun cst s₅ h₅ ht₅ hm₅ hi₅ hl₅ => ?_)
          have hi₅x := hi₅ hi₄
          refine completes_bind (completes_peekT (by omega)) (fun d s₆ h₆ => ?_)
          obtain ⟨hget₆, hseq₆⟩ := peekT_eq_ok.mp h₆
          rw [hseq₆]
          cases d
          case Comma =>
            (try dsimp only)
            have hlt₅ : s₅.pos < s₅.tokens.length - 1 :=
              pos_lt_of_get_ne_semi hl₅ hget₆ (by simp)
            refine completes_bind (completes_nextT (by omega)) (fun u s₇ h₇ => ?_)
            obtain ⟨hget₇, hs₇⟩ := nextT_eq_ok.mp h₇
            rw [if_pos hlt₅] at hs₇
            subst hs₇
            refine ih _ _ ?_ ?_ ?_
            · dsimp only; exact hl₅
            · dsimp only; omega
            · dsimp only; omega
          case RightParentheses =>
            (try dsimp only)
            exact completes_bind (completes_nextT (by omega))
              (fun _ _ _ => completes_pure _ _)
          all_goals exact completes_of_err _ _
        cases t₃
        case Keyword k =>
          cases k <;>
            first
            | ((try dsimp only); exact completes_of_err _ _)
            | ((try dsimp only)
               refine completes_bind (completes_nextT (by omega)) (fun u s₃' h₃' => ?_)
               have hp₃ := pres_nextT s₂ s₃' (by rw [h₃']; rfl)
               rw [pure_bind_apply]
               exact hrest s₃' _ (by rw [hp₃.1]; exact hl₂)
                 (by rw [hp₃.1]; exact hp₃.2.2 hi₂)
                 (by rw [hp₃.1]; omega) (by omega))
            | ((try dsimp only)
               refine completes_bind (completes_nextT (by omega)) (fun u s₃' h₃' => ?_)
               have hp₃ := pres_nextT s₂ s₃' (by rw [h₃']; rfl)
               have hl₃ : s₃'.tokens.get? (s₃'.tokens.length - 1) = some Token.Semicolon := by
                 rw [hp₃.1]; exact hl₂
               have hi₃ : s₃'.pos + 1 ≤ s₃'.tokens.length := by
                 rw [hp₃.1]; exact hp₃.2.2 hi₂
               have ht₃ : s₃'.tokens.length = s₂.tokens.length := by rw [hp₃.1]
               refine completes_bind_pres (pres_expectT _)
                 (completes_expectT (by omega) _) hl₃
                 (fun u₂ s₄ h₄ ht₄ hm₄ hi₄ hl₄ => ?_)
               have hi₄x := hi₄ hi₃
               refine completes_bind (completes_nextT (by omega)) (fun n s₅ h₅ => ?_)
               have hp₅ := pres_nextT s₄ s₅ (by rw [h₅]; rfl)
               have hl₅ : s₅.tokens.get? (s₅.tokens.length - 1) = some Token.Semicolon := by
                 rw [hp₅.1]; exact hl₄
               have hi₅ : s₅.pos + 1 ≤ s₅.tokens.length := by
                 rw [hp₅.1]; exact hp₅.2.2 hi₄x
               have ht₅ : s₅.tokens.length = s₄.tokens.length := by rw [hp₅.1]
               cases n <;>
                 first
                 | ((try dsimp only); rw [perr_bind_apply]; exact completes_of_err _ _)
                 | ((try dsimp only)
                    rw [pure_bind_apply]
                    refine completes_bind_pres (pres_expectT _)
                      (completes_expectT (by omega) _) hl₅
                      (fun u₃ s₆ h₆ ht₆ hm₆ hi₆ hl₆ => ?_)
                    have hi₆x := hi₆ hi₅
                    rw [pure_bind_apply]
                    exact hrest s₆ _ hl₆ (by omega) (by omega) (by omega)))
        all_goals ((try dsimp only); exact completes_of_err _ _)
      all_goals ((try dsimp only); rw [perr_bind_apply]; exact completes_of_err _ _)

theorem psel_total (fuel : Nat) (s : Parser)
    (hlast : s.tokens.get? (s.tokens.length - 1) = some Token.Semicolon)
    (hpos : s.pos + 1 ≤ s.tokens.length)
    (hfuel : 2 * (s.tokens.length - s.pos) + 3 ≤ fuel) :
    completes (parse_select fuel s) := by
  cases fuel with
  | zero => omega
  | succ f =>
    simp only [parse_select]
    refine completes_bind_pres (pres_expr_comma_list f [])
      (ecl_total f [] s hlast hpos (by omega)) hlast
      (fun cols s₁ h₁ ht₁ hm₁ hi₁ hl₁ => ?_)
    have hi₁x := hi₁ hpos
    refine completes_bind_pres (pres_expectT _)
      (completes_expectT (by omega) _) hl₁
      (fun u s₂ h₂ ht₂ hm₂ hi₂ hl₂ => ?_)
    have hi₂x := hi₂ hi₁x
    refine completes_bind (completes_nextT (by omega)) (fun t s₃ h₃ => ?_)
    have hp₃ := pres_nextT s₂ s₃ (by rw [h₃]; rfl)
    have hl₃ : s₃.tokens.get? (s₃.tokens.length - 1) = some Token.Semicolon := by
      rw [hp₃.1]; exact hl₂
    have hi₃ : s₃.pos + 1 ≤ s₃.tokens.length := by rw [hp₃.1]; exact hp₃.2.2 hi₂x
    have ht₃ : s₃.tokens.length = s₂.tokens.length := by rw [hp₃.1]
    have hm₃ : s₂.pos ≤ s₃.pos := hp₃.2.1
    cases t
    case Identifier w =>
      (try dsimp only)
      rw [pure_bind_apply]
      refine completes_bind (completes_peekT (by omega)) (fun pk s₄ h₄ => ?_)
      obtain ⟨hget₄, hseq₄⟩ := peekT_eq_ok.mp h₄
      rw [hseq₄]
      have horder : ∀ (s₅ : Parser) (wh : Option Expression),
          s₅.tokens.get? (s₅.tokens.length - 1) = some Token.Semicolon →
          s₅.pos + 1 ≤ s₅.tokens.length →
          s₅.tokens.length = s₃.tokens.length →
          s.pos ≤ s₅.pos →
          completes ((peekT >>= fun pk2 =>
            if pk2 = Token.Keyword Keyword.Order then
              nextT >>= fun _ => expectT (Token.Keyword Keyword.By) >>= fun _ =>
                expr_comma_list f [] >>= fun y1 =>
                  expectT Token.Semicolon >>= fun _ =>
                    pure (Statement.Select cols w wh y1)
            else
              (pure ([] : List Expression) : PM (List Expression)) >>= fun y1 =>
                expectT Token.Semicolon >>= fun _ =>
                  pure (Statement.Select cols w wh y1)) s₅) := by
        intro s₅ wh hl₅ hi₅ ht₅ hm₅
        refine completes_bind (completes_peekT (by omega)) (fun pk2 s₆ h₆ => ?_)
        obtain ⟨hget₆, hseq₆⟩ := peekT_eq_ok.mp h₆
        rw [hseq₆]
        split
        · rename_i hod
          have hlt₅ : s₅.pos < s₅.tokens.length - 1 :=
            pos_lt_of_get_ne_semi hl₅ hget₆ (by simp [hod])
          refine completes_bind (completes_nextT (by omega)) (fun u₂ s₆' h₆' => ?_)
          obtain ⟨hget₆', hs₆'⟩ := nextT_eq_ok.mp h₆'
          rw [if_pos hlt₅] at hs₆'
          subst hs₆'
          refine completes_bind_pres (pres_expectT _)
            (completes_expectT (by dsimp only; omega) _)
            (by dsimp only; exact hl₅)
            (fun u₃ s₇' h₇' ht₇' hm₇' hi₇' hl₇' => ?_)
          dsimp only at ht₇' hm₇' hi₇'
          have hi₇y := hi₇' (by omega)
          refine completes_bind_pres (pres_expr_comma_list f [])
            (ecl_total f [] s₇' hl₇' (by omega) (by omega)) hl₇'
            (fun y1 s₈ h₈ ht₈ hm₈ hi₈ hl₈ => ?_)
          have hi₈x := hi₈ hi₇y
          refine completes_bind_pres (pres_expectT _)
            (completes_expectT (by omega) _) hl₈
            (fun u₄ s₉ h₉ ht₉ hm₉ hi₉ hl₉ => ?_)
          exact completes_pure _ _
        · rw [pure_bind_apply]
          refine completes_bind_pres (pres_expectT _)
            (completes_expectT (by omega) _) hl₅
            (fun u₄ s₉ h₉ ht₉ hm₉ hi₉ hl₉ => ?_)
          exact completes_pure _ _
      split
      · rename_i hwh
        have hlt₃ : s₃.pos < s₃.tokens.length - 1 :=
          pos_lt_of_get_ne_semi hl₃ hget₄ (by simp [hwh])
        refine completes_bind (completes_nextT (by omega)) (fun u₂ s₄' h₄' => ?_)
        obtain ⟨hget₄', hs₄'⟩ := nextT_eq_ok.mp h₄'
        rw [if_pos hlt₃] at hs₄'
        subst hs₄'
        refine completes_bind_pres (pres_parse_expression f 0)
          (pe_total f 0 _ (by dsimp only; exact hl₃) (by dsimp only; omega)
            (by dsimp only; omega))
          (by dsimp only; exact hl₃)
          (fun e s₅' h₅' ht₅' hm₅' hi₅' hl₅' => ?_)
        dsimp only at ht₅' hm₅' hi₅'
        have hi₅y := hi₅' (by omega)
        rw [pure_bind_apply]
        exact horder s₅' (some e) hl₅' hi₅y (by omega) (by omega)
      · rw [pure_bind_apply]
        exact horder s₃ none hl₃ hi₃ rfl (by omega)
    all_goals ((try dsimp only); rw [perr_bind_apply]; exact completes_of_err _ _)

theorem pct_total (fuel : Nat) (s : Parser)
    (hlast : s.tokens.get? (s.tokens.length - 1) = some Token.Semicolon)
    (hpos : s.pos + 1 ≤ s.tokens.length)
    (hfuel : 2 * (s.tokens.length - s.pos) + 4 ≤ fuel) :
    completes (parse_create_table fuel s) := by
  cases fuel with
  | zero => omega
  | succ f =>
    simp only [parse_create_table]
    refine completes_bind_pres (pres_expectT _)
      (completes_expectT (by omega) _) hlast
      (fun u s₁ h₁ ht₁ hm₁ hi₁ hl₁ => ?_)
    have hi₁x := hi₁ hpos
    refine completes_bind (completes_nextT (by omega)) (fun t s₂ h₂ => ?_)
    have hp₂ := pres_nextT s₁ s₂ (by rw [h₂]; rfl)
    have hl₂ : s₂.tokens.get? (s₂.tokens.length - 1) = some Token.Semicolon := by
      rw [hp₂.1]; exact hl₁
    have hi₂ : s₂.pos + 1 ≤ s₂.tokens.length := by rw [hp₂.1]; exact hp₂.2.2 hi₁x
    have ht₂ : s₂.tokens.length = s₁.tokens.length := by rw [hp₂.1]
    have hm₂ : s₁.pos ≤ s₂.pos := hp₂.2.1
    cases t
    case Identifier w =>
      (try dsimp only)
      rw [pure_bind_apply]
      refine completes_bind_pres (pres_expectT _)
        (completes_expectT (by omega) _) hl₂
        (fun u₂ s₃ h₃ ht₃ hm₃ hi₃ hl₃ => ?_)
      have hi₃x := hi₃ hi₂
      refine completes_bind_pres (pres_create_columns_loop f [])
        (ccl_total f [] s₃ hl₃ hi₃x (by omega)) hl₃
        (fun cols s₄ h₄ ht₄ hm₄ hi₄ hl₄ => ?_)
      have hi₄x := hi₄ hi₃x
      refine completes_bind_pres (pres_expectT _)
        (completes_expectT (by omega) _) hl₄
        (fun u₃ s₅ h₅ ht₅ hm₅ hi₅ hl₅ => ?_)
      exact completes_pure _ _
    all_goals ((try dsimp only); rw [perr_bind_apply]; exact completes_of_err _ _)

theorem pst_total (fuel : Nat) (s : Parser)
    (hlast : s.tokens.get? (s.tokens.length - 1) = some Token.Semicolon)
    (hpos : s.pos + 1 ≤ s.tokens.length)
    (hfuel : 2 * (s.tokens.length - s.pos) + 5 ≤ fuel) :
    completes (parse_statement fuel s) := by
  cases fuel with
  | zero => omega
  | succ f =>
    simp only [parse_statement]
    refine completes_bind (completes_peekT (by omega)) (fun t s₁ h₁ => ?_)
    obtain ⟨hget, hseq⟩ := peekT_eq_ok.mp h₁
    rw [hseq]
    cases t
    case Keyword k =>
      cases k <;>
        first
        | ((try dsimp only); exact completes_of_err _ _)
        | ((try dsimp only)
           have hlt : s.pos < s.tokens.length - 1 :=
             pos_lt_of_get_ne_semi hlast hget (by simp)
           refine completes_bind (completes_nextT (by omega)) (fun u s₂ h₂ => ?_)
           obtain ⟨hget₂, hs₂⟩ := nextT_eq_ok.mp h₂
           rw [if_pos hlt] at hs₂
           subst hs₂
           first
           | (exact psel_total f _ (by dsimp only; exact hlast) (by dsimp only; omega)
                (by dsimp only; omega))
           | (exact pct_total f _ (by dsimp only; exact hlast) (by dsimp only; omega)
                (by dsimp only; omega)))
    all_goals ((try dsimp only); exact completes_of_err _ _)

/-! ## Claim theorems -/

/-- Claim C1.  The claim states that tokenization never aborts the process
and that an integer literal exceeding the unsigned 64-bit range is surfaced
as a recoverable parse error.  The code violates this: `read_number` calls
`parse::<u64>().unwrap()`, and on the literal 18446744073709551616 (= 2^64)
the parse fails and the `unwrap` panics, aborting the process.  This theorem
evaluates the embedded tokenizer at that failing input and observes the
panic. -/
theorem claim_C1 : tokenize "18446744073709551616".data = LexResult.panicked := by
  decide

/-- Claim C2, counterexample.  The claim asserts `parse_statement` never
crashes for every finite token sequence, including the empty sequence; but
on the empty sequence `Parser::peek` evaluates `self.tokens[self.pos]` with
`pos = 0` on an empty vector and panics (index out of bounds). -/
theorem claim_C2_counterexample : parse_statement 5 ⟨[], 0⟩ = PRes.panic := by
  decide

/-- Claim C2, amended.  For every non-empty token sequence whose last token
is the `;` terminator, `parse_statement` (with fuel at least
`2 * len + 5`, a bound linear in the sequence length) returns either one
parsed Statement or a descriptive syntax error: it neither panics nor runs
out of fuel.  (The unamended claim also covered the empty sequence — which
panics, see the counterexample — and terminator-less sequences, on which
the parser can recurse forever, see C4's counterexample.) -/
theorem claim_C2 : ∀ (ts : List Token) (fuel : Nat),
    ts.get? (ts.length - 1) = some Token.Semicolon →
    2 * ts.length + 5 ≤ fuel →
    completes (parse_statement fuel ⟨ts, 0⟩) := by
  intro ts fuel hlast hfuel
  have hne : ts ≠ [] := by
    intro he; subst he; cases hlast
  have hlen : 1 ≤ ts.length := by
    cases ts with
    | nil => exact absurd rfl hne
    | cons t ts' => simp
  exact pst_total fuel ⟨ts, 0⟩ hlast (by dsimp only; omega) (by dsimp only; omega)

/-- Witness for C2 at the one-token sequence `[;]` (which parses to the
error "Expected SELECT or CREATE" — a completed run). -/
theorem claim_C2_witness : completes (parse_statement 7 ⟨[Token.Semicolon], 0⟩) :=
  claim_C2 [Token.Semicolon] 7 (by decide) (by decide)

/-- Claim C3.  The expression parser's binding powers realize the ordering
prefix (threshold 100) > `*`,`/` (30) > infix `+`,`-` (25) > comparisons
(20) > `OR` (15) > `AND` (10) > postfix `ASC`/`DESC` (5), with left
associativity: `1 + 2 * 3` parses as `1 + (2 * 3)`, `NOT a AND b` as
`(NOT a) AND b`, `a AND b OR c` as `a AND (b OR c)` (AND binding looser
than OR), `1 - 2 - 3` as `(1 - 2) - 3`, and `- 1 * 2` as `(- 1) * 2`. -/
theorem claim_C3 :
    tokenPrecedence Token.Star = 30 ∧ tokenPrecedence Token.Divide = 30 ∧
    tokenPrecedence Token.Plus = 25 ∧ tokenPrecedence Token.Minus = 25 ∧
    tokenPrecedence Token.Equal = 20 ∧ tokenPrecedence Token.NotEqual = 20 ∧
    tokenPrecedence Token.LessThan = 20 ∧ tokenPrecedence Token.GreaterThan = 20 ∧
    tokenPrecedence Token.LessThanOrEqual = 20 ∧
    tokenPrecedence Token.GreaterThanOrEqual = 20 ∧
    tokenPrecedence (Token.Keyword Keyword.Or) = 15 ∧
    tokenPrecedence (Token.Keyword Keyword.And) = 10 ∧
    tokenPrecedence (Token.Keyword Keyword.Asc) = 5 ∧
    tokenPrecedence (Token.Keyword Keyword.Desc) = 5 ∧
    (30 : Nat) < 100 ∧
    parse_expression 20 0 ⟨c3_tokens_mul, 0⟩ =
      PRes.ok (Expression.BinaryOperation BinaryOperator.Plus (Expression.Number 1)
        (Expression.BinaryOperation BinaryOperator.Multiply (Expression.Number 2)
          (Expression.Number 3))) ⟨c3_tokens_mul, 5⟩ ∧
    parse_expression 20 0 ⟨c3_tokens_not, 0⟩ =
      PRes.ok (Expression.BinaryOperation BinaryOperator.And
        (Expression.UnaryOperation UnaryOperator.Not (Expression.Identifier ['a']))
        (Expression.Identifier ['b'])) ⟨c3_tokens_not, 4⟩ ∧
    parse_expression 20 0 ⟨c3_tokens_or, 0⟩ =
      PRes.ok (Expression.BinaryOperation BinaryOperator.And (Expression.Identifier ['a'])
        (Expression.BinaryOperation BinaryOperator.Or (Expression.Identifier ['b'])
          (Expression.Identifier ['c']))) ⟨c3_tokens_or, 5⟩ ∧
    parse_expression 20 0 ⟨c3_tokens_assoc, 0⟩ =
      PRes.ok (Expression.BinaryOperation BinaryOperator.Minus
        (Expression.BinaryOperation BinaryOperator.Minus (Expression.Number 1)
          (Expression.Number 2)) (Expression.Number 3)) ⟨c3_tokens_assoc, 5⟩ ∧
    parse_expression 20 0 ⟨c3_tokens_neg, 0⟩ =
      PRes.ok (Expression.BinaryOperation BinaryOperator.Multiply
        (Expression.UnaryOperation UnaryOperator.Minus (Expression.Number 1))
        (Expression.Number 2)) ⟨c3_tokens_neg, 4⟩ := by
  decide

/-- Claim C4, counterexample.  The claim asserts that every non-empty token
sequence with no `;` yields a SyntaxError.  On the tokens of `SELECT 1 +`
the parser instead recurses forever: at the clamped final position `next`
returns the `+` again and again, and the prefix `+` arm of
`parse_expression` recurses at threshold 100 without consuming anything, so
the Rust original aborts with a stack overflow rather than returning an
error.  In the fuel embedding the run exhausts every fuel value. -/
theorem claim_C4_counterexample :
    parse_statement_diverges ⟨c4_diverging_tokens, 0⟩ ∧
    Token.Semicolon ∉ c4_diverging_tokens := by
  constructor
  · intro fuel
    cases fuel with
    | zero => rfl
    | succ f =>
      have h : parse_select f
          ⟨[Token.Keyword Keyword.Select, Token.Number 1, Token.Plus], 1⟩ = PRes.fuelOut :=
        psel_diverges f
      simp [parse_statement, bind_apply, nextT, peekT, c4_diverging_tokens, h]
  · decide

/-- Claim C4, amended.  For every token sequence containing no `;` token,
`parse_statement` never returns a Statement: a successful parse ends in
`expect(Semicolon)`, which requires a `;` in the sequence.  (When the run
terminates normally it therefore returns a SyntaxError; the original
universal "returns a SyntaxError" fails because some terminator-less
sequences make the parser recurse forever — see the counterexample.) -/
theorem claim_C4 : ∀ (ts : List Token) (fuel : Nat) (stmt : Statement) (s₂ : Parser),
    Token.Semicolon ∉ ts → parse_statement fuel ⟨ts, 0⟩ ≠ PRes.ok stmt s₂ := by
  intro ts fuel stmt s₂ hns h
  exact hns (oks_parse_statement fuel ⟨ts, 0⟩ stmt s₂ h)

/-- Witness for C4 at the tokens of `SELECT a FROM t`. -/
theorem claim_C4_witness :
    parse_statement 30 ⟨c4_nosemi_tokens, 0⟩ ≠
      PRes.ok (Statement.Select [Expression.Identifier ['a']] ['t'] none [])
        ⟨c4_nosemi_tokens, 3⟩ :=
  claim_C4 c4_nosemi_tokens 30 _ _ (by decide)

/-- Claim C6.  Tokenization terminates on every input: the fuel
`cs.length + 1` used by `tokenize` is provably sufficient (the run never
ends in `fuelOut`), the emitted token sequence is finite with at most one
token per input character, and the `Eof` sentinel is never part of the
emitted sequence. -/
theorem claim_C6 : ∀ cs : List Char,
    tokenize cs ≠ LexResult.fuelOut ∧
    ∀ ts, tokenize cs = LexResult.ok ts → ts.length ≤ cs.length ∧ Token.Eof ∉ ts := by
  intro cs
  exact tokenize_go_complete (cs.length + 1) cs (Nat.lt_succ_self _)

/-- Witness for C6 at the concrete input `a 1;`. -/
theorem claim_C6_witness :
    tokenize "a 1;".data ≠ LexResult.fuelOut ∧
    ([Token.Identifier ['a'], Token.Number 1, Token.Semicolon].length ≤ "a 1;".data.length ∧
      Token.Eof ∉ [Token.Identifier ['a'], Token.Number 1, Token.Semicolon]) :=
  ⟨(claim_C6 "a 1;".data).1, (claim_C6 "a 1;".data).2 _ (by decide)⟩

/-- Claim C7.  A string literal beginning at `"` or `'` tokenizes to a
String token carrying exactly the characters between the opening quote and
the first matching quote, verbatim; if the input ends before the matching
quote, the tokenizer emits an Invalid token carrying the opening quote. -/
theorem claim_C7 (q : Char) (content rest : List Char)
    (hq : q = '"' ∨ q = '\'') (hnc : q ∉ content) :
    next_token (q :: (content ++ q :: rest)) = some (Token.String content, rest) ∧
    next_token (q :: content) = some (Token.Invalid q, []) := by
  rcases hq with rfl | rfl <;>
    refine ⟨?_, ?_⟩ <;>
      simp [next_token, isWs, next_token_dispatch, read_string,
        read_string_go_terminated _ _ _ _ hnc, read_string_go_unterminated _ _ _ hnc]

/-- Witness for C7: the literal `'ab'` followed by `;`, and the
unterminated `'ab`. -/
theorem claim_C7_witness :
    next_token ('\'' :: (['a', 'b'] ++ '\'' :: [';'])) =
      some (Token.String ['a', 'b'], [';']) ∧
    next_token ('\'' :: ['a', 'b']) = some (Token.Invalid '\'', []) :=
  claim_C7 '\'' ['a', 'b'] [';'] (Or.inr rfl) (by decide)

/-- Claim C8.  `CREATE TABLE t ();` — an empty column list — is accepted:
tokenizing the text and parsing the tokens yields a CreateTable statement
for table `t` with zero columns. -/
theorem claim_C8 :
    tokenize "CREATE TABLE t ();".data = LexResult.ok c8_tokens ∧
    parse_statement 20 ⟨c8_tokens, 0⟩ =
      PRes.ok (Statement.CreateTable ['t'] []) ⟨c8_tokens, 5⟩ := by
  decide

/-- Claim C10.  A trailing comma before the closing `)` of a CREATE TABLE
column list is accepted: `CREATE TABLE t (a INT,);` parses to a CreateTable
with exactly one column `a INT` and no constraints. -/
theorem claim_C10 :
    tokenize "CREATE TABLE t (a INT,);".data = LexResult.ok c10_tokens ∧
    parse_statement 20 ⟨c10_tokens, 0⟩ =
      PRes.ok (Statement.CreateTable ['t'] [TableColumn.mk ['a'] DBType.Int []])
        ⟨c10_tokens, 8⟩ := by
  decide

/-- Claim C5.  For non-empty token sequences the position index never
exceeds the index of the final element: peeking does not move the index,
advancing at the last index is a no-op that returns the final token again,
and the invariant `pos ≤ len - 1` (written `pos + 1 ≤ len`) is preserved by
every parser operation, up to and including a whole `parse_statement`
run. -/
theorem claim_C5 :
    (∀ s t s₂, peekT s = PRes.ok t s₂ → s₂ = s) ∧
    (∀ (s : Parser) (t : Token), s.pos + 1 = s.tokens.length →
      s.tokens.get? s.pos = some t → nextT s = PRes.ok t s) ∧
    (∀ fuel s s₂, s.pos + 1 ≤ s.tokens.length →
      (parse_statement fuel s).state? = some s₂ →
      s₂.tokens = s.tokens ∧ s₂.pos + 1 ≤ s.tokens.length) := by
  refine ⟨?_, ?_, ?_⟩
  · intro s t s₂ h
    exact (peekT_eq_ok.mp h).2
  · intro s t hlast hget
    unfold nextT
    rw [hget, if_neg (by omega)]
  · intro fuel s s₂ hinv h
    obtain ⟨h1, _, h3⟩ := pres_parse_statement fuel s s₂ h
    exact ⟨h1, h3 hinv⟩

/-- Witness for C5: the no-op clamped `next` on the one-token sequence
`[;]` at its last index, and the invariant after a full `parse_statement`
run on it. -/
theorem claim_C5_witness :
    nextT ⟨[Token.Semicolon], 0⟩ = PRes.ok Token.Semicolon ⟨[Token.Semicolon], 0⟩ ∧
    (⟨[Token.Semicolon], 0⟩ : Parser).tokens = [Token.Semicolon] ∧
    (0 : Nat) + 1 ≤ [Token.Semicolon].length :=
  ⟨claim_C5.2.1 ⟨[Token.Semicolon], 0⟩ Token.Semicolon rfl rfl,
    (claim_C5.2.2 9 ⟨[Token.Semicolon], 0⟩ ⟨[Token.Semicolon], 0⟩ (by decide) (by decide)).1,
    (claim_C5.2.2 9 ⟨[Token.Semicolon], 0⟩ ⟨[Token.Semicolon], 0⟩ (by decide) (by decide)).2⟩

/-! ## Simulation lemmas and the trailing-token claim (C9) -/

theorem sim_pure {ts sfx : List Token} {α : Type} (a : α) : Sim ts sfx (pure a : PM α) := by
  intro p b s₂ hp h
  cases h
  exact ⟨rfl, hp, rfl⟩

theorem sim_perr {ts sfx : List Token} {α : Type} (msg : String) :
    Sim ts sfx (perr msg : PM α) := by
  intro p b s₂ hp h
  cases h

theorem sim_bind_perr {ts sfx : List Token} {α β : Type} (msg : String) (k : α → PM β) :
    Sim ts sfx ((perr msg : PM α) >>= k) := by
  intro p b s₂ hp h
  rw [perr_bind_apply] at h
  cases h

theorem get_append {ts sfx : List Token} {p : Nat} (hp : p < ts.length) :
    (ts ++ sfx).get? p = ts.get? p := List.get?_append hp

theorem sim_peekT {ts sfx : List Token} : Sim ts sfx peekT := by
  intro p a s₂ hp h
  obtain ⟨hget, hs⟩ := peekT_eq_ok.mp h
  dsimp only at hget
  subst hs
  refine ⟨?_, hp, rfl⟩
  rw [peekT_eq_ok]
  refine ⟨?_, rfl⟩
  dsimp only
  rw [get_append (by omega)]
  exact hget

theorem state_eta {ts : List Token} {s : Parser} (h : s.tokens = ts) :
    s = ⟨ts, s.pos⟩ := by
  cases s
  simp_all

theorem sim_bind {ts sfx : List Token} {α β : Type} {m : PM α} {f : α → PM β}
    (hm : Sim ts sfx m) (hf : ∀ a, Sim ts sfx (f a)) : Sim ts sfx (m >>= f) := by
  intro p b s₂ hp h
  obtain ⟨a, s₁, h1, h2⟩ := bind_eq_ok.mp h
  obtain ⟨he1, hq1, ht1⟩ := hm p a s₁ hp h1
  have hs₁ : s₁ = ⟨ts, s₁.pos⟩ := state_eta ht1
  rw [hs₁] at h2
  obtain ⟨he2, hq2, ht2⟩ := (hf a) s₁.pos b s₂ hq1 h2
  refine ⟨?_, hq2, ht2⟩
  rw [bind_apply, he1]
  exact he2

theorem sim_bind_peekT {ts sfx : List Token} {α : Type} {f : Token → PM α}
    (hf : ∀ t, SimKnown ts sfx t (f t)) : Sim ts sfx (peekT >>= f) := by
  intro p b s₂ hp h
  obtain ⟨t, s₁, h1, h2⟩ := bind_eq_ok.mp h
  obtain ⟨hget, hs⟩ := peekT_eq_ok.mp h1
  subst hs
  obtain ⟨he2, hq2, ht2⟩ := (hf t) p b s₂ hp hget h2
  refine ⟨?_, hq2, ht2⟩
  rw [bind_apply]
  have hpk : peekT ⟨ts ++ sfx, p⟩ = PRes.ok t ⟨ts ++ sfx, p⟩ := by
    rw [peekT_eq_ok]
    refine ⟨?_, rfl⟩
    dsimp only
    dsimp only at hget
    rw [get_append (by omega)]
    exact hget
  rw [hpk]
  exact he2

theorem sim_known_of_sim {ts sfx : List Token} {t : Token} {α : Type} {m : PM α}
    (hm : Sim ts sfx m) : SimKnown ts sfx t m :=
  fun p a s₂ hp _ h => hm p a s₂ hp h

theorem nextT_strict (sfx : List Token) {ts : List Token} {p : Nat} {t : Token}
    (hget : ts.get? p = some t) (hp1 : p + 1 < ts.length) :
    nextT ⟨ts, p⟩ = PRes.ok t ⟨ts, p + 1⟩ ∧
    nextT ⟨ts ++ sfx, p⟩ = PRes.ok t ⟨ts ++ sfx, p + 1⟩ := by
  constructor
  · rw [nextT_eq_ok]
    refine ⟨hget, ?_⟩
    rw [if_pos (show p < ts.length - 1 by omega)]
  · rw [nextT_eq_ok]
    refine ⟨?_, ?_⟩
    · show (ts ++ sfx).get? p = some t
      rw [get_append (by omega)]
      exact hget
    · rw [if_pos (show p < (ts ++ sfx).length - 1 by
        simp only [List.length_append]; omega)]

theorem sim_known_bind_nextT {ts sfx : List Token} {t : Token} {α : Type} {f : Token → PM α}
    (hlast : ts.get? (ts.length - 1) = some Token.Semicolon)
    (htne : t ≠ Token.Semicolon)
    (hf : ∀ u, Sim ts sfx (f u)) : SimKnown ts sfx t (nextT >>= f) := by
  intro p b s₂ hp hget h
  obtain ⟨u, s₁, h1, h2⟩ := bind_eq_ok.mp h
  have hlt : p < ts.length - 1 := pos_lt_of_get_ne_semi hlast hget htne
  obtain ⟨hn1, hn2⟩ := nextT_strict sfx hget (Nat.add_lt_of_lt_sub hlt)
  rw [hn1] at h1
  cases h1
  obtain ⟨he2, hq2, ht2⟩ := (hf t) (p + 1) b s₂ (by omega) h2
  refine ⟨?_, hq2, ht2⟩
  rw [bind_apply, hn2]
  exact he2

theorem sim_bind_nextT {ts sfx : List Token} {α : Type} {f : Token → PM α}
    (hlast : ts.get? (ts.length - 1) = some Token.Semicolon)
    (hsemi : ∀ s a s₂, f Token.Semicolon s ≠ PRes.ok a s₂)
    (hf : ∀ u, Sim ts sfx (f u)) : Sim ts sfx (nextT >>= f) := by
  intro p b s₂ hp h
  obtain ⟨u, s₁, h1, h2⟩ := bind_eq_ok.mp h
  obtain ⟨hget0, hs₁⟩ := nextT_eq_ok.mp h1
  have hget : ts.get? p = some u := hget0
  by_cases hlt : p < ts.length - 1
  · rw [if_pos (show p < ts.length - 1 by omega)] at hs₁
    subst hs₁
    obtain ⟨hn1, hn2⟩ := nextT_strict sfx hget (Nat.add_lt_of_lt_sub hlt)
    obtain ⟨he2, hq2, ht2⟩ := (hf u) (p + 1) b s₂ (by omega) h2
    refine ⟨?_, hq2, ht2⟩
    rw [bind_apply, hn2]
    exact he2
  · have hpe : p = ts.length - 1 := by omega
    have hu : u = Token.Semicolon := by
      rw [hpe] at hget
      rw [hget] at hlast
      exact Option.some.inj hlast
    subst hu
    exact absurd h2 (hsemi s₁ b s₂)

theorem sim_expectT {ts sfx : List Token} {e : Token}
    (hlast : ts.get? (ts.length - 1) = some Token.Semicolon)
    (he : e ≠ Token.Semicolon) : Sim ts sfx (expectT e) := by
  unfold expectT
  refine sim_bind_peekT (fun t => ?_)
  by_cases hte : t = e
  · subst hte
    intro p a s₂ hp hget h
    rw [if_pos rfl] at h ⊢
    exact sim_known_bind_nextT hlast he (fun _ => sim_pure _) p a s₂ hp hget h
  · intro p a s₂ hp hget h
    rw [if_neg hte] at h
    cases h

theorem simE_of_sim {ts sfx : List Token} {α : Type} {m : PM α}
    (hm : Sim ts sfx m) : SimE ts sfx m :=
  fun p a s₂ hp h => ⟨s₂.pos, (hm p a s₂ hp h).1⟩

theorem simE_known_of_simE {ts sfx : List Token} {t : Token} {α : Type} {m : PM α}
    (hm : SimE ts sfx m) : SimKnownE ts sfx t m :=
  fun p a s₂ hp _ h => hm p a s₂ hp h

theorem simE_bind {ts sfx : List Token} {α β : Type} {m : PM α} {f : α → PM β}
    (hm : Sim ts sfx m) (hf : ∀ a, SimE ts sfx (f a)) : SimE ts sfx (m >>= f) := by
  intro p b s₂ hp h
  obtain ⟨a, s₁, h1, h2⟩ := bind_eq_ok.mp h
  obtain ⟨he1, hq1, ht1⟩ := hm p a s₁ hp h1
  have hs₁ : s₁ = ⟨ts, s₁.pos⟩ := state_eta ht1
  rw [hs₁] at h2
  obtain ⟨q, he2⟩ := (hf a) s₁.pos b s₂ hq1 h2
  refine ⟨q, ?_⟩
  rw [bind_apply, he1]
  exact he2

theorem simE_bind_perr {ts sfx : List Token} {α β : Type} (msg : String) (k : α → PM β) :
    SimE ts sfx ((perr msg : PM α) >>= k) := by
  intro p b s₂ hp h
  rw [perr_bind_apply] at h
  cases h

theorem simE_bind_peekT {ts sfx : List Token} {α : Type} {f : Token → PM α}
    (hf : ∀ t, SimKnownE ts sfx t (f t)) : SimE ts sfx (peekT >>= f) := by
  intro p b s₂ hp h
  obtain ⟨t, s₁, h1, h2⟩ := bind_eq_ok.mp h
  obtain ⟨hget0, hs⟩ := peekT_eq_ok.mp h1
  have hget : ts.get? p = some t := hget0
  subst hs
  obtain ⟨q, he2⟩ := (hf t) p b s₂ hp hget h2
  refine ⟨q, ?_⟩
  rw [bind_apply]
  have hpk : peekT ⟨ts ++ sfx, p⟩ = PRes.ok t ⟨ts ++ sfx, p⟩ := by
    rw [peekT_eq_ok]
    refine ⟨?_, rfl⟩
    show (ts ++ sfx).get? p = some t
    rw [get_append (by omega)]
    exact hget
  rw [hpk]
  exact he2

theorem simE_known_bind_nextT {ts sfx : List Token} {t : Token} {α : Type} {f : Token → PM α}
    (hlast : ts.get? (ts.length - 1) = some Token.Semicolon)
    (htne : t ≠ Token.Semicolon)
    (hf : ∀ u, SimE ts sfx (f u)) : SimKnownE ts sfx t (nextT >>= f) := by
  intro p b s₂ hp hget h
  obtain ⟨u, s₁, h1, h2⟩ := bind_eq_ok.mp h
  have hlt : p < ts.length - 1 := pos_lt_of_get_ne_semi hlast hget htne
  obtain ⟨hn1, hn2⟩ := nextT_strict sfx hget (Nat.add_lt_of_lt_sub hlt)
  rw [hn1] at h1
  cases h1
  obtain ⟨q, he2⟩ := (hf t) (p + 1) b s₂ (Nat.add_lt_of_lt_sub hlt) h2
  refine ⟨q, ?_⟩
  rw [bind_apply, hn2]
  exact he2

theorem simE_bind_nextT {ts sfx : List Token} {α : Type} {f : Token → PM α}
    (hlast : ts.get? (ts.length - 1) = some Token.Semicolon)
    (hsemi : ∀ s a s₂, f Token.Semicolon s ≠ PRes.ok a s₂)
    (hf : ∀ u, SimE ts sfx (f u)) : SimE ts sfx (nextT >>= f) := by
  intro p b s₂ hp h
  obtain ⟨u, s₁, h1, h2⟩ := bind_eq_ok.mp h
  obtain ⟨hget0, hs₁⟩ := nextT_eq_ok.mp h1
  have hget : ts.get? p = some u := hget0
  by_cases hlt : p < ts.length - 1
  · rw [if_pos (show p < ts.length - 1 by omega)] at hs₁
    subst hs₁
    obtain ⟨hn1, hn2⟩ := nextT_strict sfx hget (Nat.add_lt_of_lt_sub hlt)
    obtain ⟨q, he2⟩ := (hf u) (p + 1) b s₂ (Nat.add_lt_of_lt_sub hlt) h2
    refine ⟨q, ?_⟩
    rw [bind_apply, hn2]
    exact he2
  · have hpe : p = ts.length - 1 := by omega
    have hu : u = Token.Semicolon := by
      rw [hpe] at hget
      rw [hget] at hlast
      exact Option.some.inj hlast
    subst hu
    exact absurd h2 (hsemi s₁ b s₂)

theorem expectT_ok_build {s : Parser} {t : Token} (hget : s.tokens.get? s.pos = some t) :
    expectT t s = PRes.ok ()
      (if s.pos < s.tokens.length - 1 then ⟨s.tokens, s.pos + 1⟩ else s) := by
  have hpk : peekT s = PRes.ok t s := by rw [peekT_eq_ok]; exact ⟨hget, rfl⟩
  have hnx : nextT s = PRes.ok t
      (if s.pos < s.tokens.length - 1 then ⟨s.tokens, s.pos + 1⟩ else s) := by
    rw [nextT_eq_ok]
    refine ⟨hget, ?_⟩
    split <;> rfl
  unfold expectT
  rw [bind_apply, hpk]
  simp only [if_pos rfl, if_true]
  rw [bind_apply, hnx]
  rfl

/-- The terminal `expect(Semicolon); Ok(statement)` tail: it succeeds on the
extended list as well, at a possibly different final position. -/
theorem simE_expectSemi_pure {ts sfx : List Token} {α : Type} (x : α) :
    SimE ts sfx (expectT Token.Semicolon >>= fun _ => (pure x : PM α)) := by
  intro p b s₂ hp h
  obtain ⟨u, s₁, h1, h2⟩ := bind_eq_ok.mp h
  cases h2
  unfold expectT at h1
  obtain ⟨t, s₁', hpk, hif⟩ := bind_eq_ok.mp h1
  obtain ⟨hget0, hs⟩ := peekT_eq_ok.mp hpk
  have hget : ts.get? p = some t := hget0
  subst hs
  by_cases hts : t = Token.Semicolon
  · subst hts
    have hget2 : (⟨ts ++ sfx, p⟩ : Parser).tokens.get?
        (⟨ts ++ sfx, p⟩ : Parser).pos = some Token.Semicolon := by
      show (ts ++ sfx).get? p = some Token.Semicolon
      rw [get_append (by omega)]
      exact hget
    refine ⟨if (⟨ts ++ sfx, p⟩ : Parser).pos <
        (⟨ts ++ sfx, p⟩ : Parser).tokens.length - 1 then p + 1 else p, ?_⟩
    rw [bind_apply, expectT_ok_build hget2]
    by_cases hc : (⟨ts ++ sfx, p⟩ : Parser).pos <
        (⟨ts ++ sfx, p⟩ : Parser).tokens.length - 1
    · simp only [if_pos hc]
      rfl
    · simp only [if_neg hc]
      rfl
  · rw [if_neg hts] at hif
    cases hif

theorem sim_pe_el {ts sfx : List Token}
    (hlast : ts.get? (ts.length - 1) = some Token.Semicolon) :
    ∀ fuel, (∀ mp, Sim ts sfx (parse_expression fuel mp)) ∧
      (∀ mp left, Sim ts sfx (expression_loop fuel mp left)) := by
  intro fuel
  induction fuel with
  | zero =>
    constructor
    · intro mp p a s₂ hp h; simp [parse_expression] at h
    · intro mp left p a s₂ hp h; simp [expression_loop] at h
  | succ f ih =>
    have harm : ∀ (mp k : Nat) (g : Expression → Expression),
        Sim ts sfx (parse_expression f k >>= fun rhs =>
          (pure (g rhs) : PM Expression) >>= fun y => expression_loop f mp y) :=
      fun mp k g => sim_bind (ih.1 k) (fun rhs => sim_bind (sim_pure _)
        (fun y => ih.2 mp y))
    have harm2 : ∀ (mp k : Nat) (g : Expression → Expression),
        Sim ts sfx (parse_expression f k >>= fun rhs =>
          expression_loop f mp (g rhs)) :=
      fun mp k g => sim_bind (ih.1 k) (fun rhs => ih.2 mp (g rhs))
    constructor
    · intro mp
      simp only [parse_expression]
      refine sim_bind_nextT hlast ?_ ?_
      · intro s a s₂ hcon
        have hcon' : ((perr "Unexpected prefix token" : PM Expression) >>= fun y =>
            expression_loop f mp y) s = PRes.ok a s₂ := hcon
        rw [perr_bind_apply] at hcon'
        cases hcon'
      · intro t
        cases t
        case Keyword k =>
          cases k <;>
            first
            | exact sim_bind_perr _ _
            | exact sim_bind (ih.1 100) (fun rhs => sim_bind (sim_pure _)
                (fun y => ih.2 mp y))
            | exact sim_bind (sim_pure _) (fun y => ih.2 mp y)
        case LeftParentheses =>
          exact sim_bind (ih.1 0) (fun e => sim_bind (sim_expectT hlast (by simp))
            (fun _ => sim_bind (sim_pure _) (fun y => ih.2 mp y)))
        all_goals
          first
          | exact sim_bind_perr _ _
          | exact sim_bind (ih.1 100) (fun rhs => sim_bind (sim_pure _)
              (fun y => ih.2 mp y))
          | exact sim_bind (sim_pure _) (fun y => ih.2 mp y)
    · intro mp left
      simp only [expression_loop]
      refine sim_bind_peekT (fun t => ?_)
      by_cases hpr : tokenPrecedence t ≤ mp
      · intro p a s₂ hp hget h
        rw [if_pos hpr] at h ⊢
        exact sim_pure left p a s₂ hp h
      · intro p a s₂ hp hget h
        rw [if_neg hpr] at h ⊢
        have htne : t ≠ Token.Semicolon := by
          intro he; subst he; simp [tokenPrecedence] at hpr
        refine sim_known_bind_nextT hlast htne ?_ p a s₂ hp hget h
        intro tok
        cases tok <;>
          first
          | exact sim_pure _
          | exact harm2 mp 25 _
          | exact harm2 mp 30 _
          | exact harm2 mp 20 _
          | (rename_i k; cases k <;>
              first
              | exact sim_pure _
              | exact ih.2 mp _
              | exact harm2 mp 10 _
              | exact harm2 mp 15 _)

theorem sim_ecl {ts sfx : List Token}
    (hlast : ts.get? (ts.length - 1) = some Token.Semicolon) :
    ∀ fuel acc, Sim ts sfx (expr_comma_list fuel acc) := by
  intro fuel
  induction fuel with
  | zero => intro acc p a s₂ hp h; simp [expr_comma_list] at h
  | succ f ih =>
    intro acc
    simp only [expr_comma_list]
    refine sim_bind ((sim_pe_el hlast f).1 0) (fun e => ?_)
    refine sim_bind_peekT (fun t => ?_)
    by_cases hc : t = Token.Comma
    · subst hc
      intro p a s₂ hp hget h
      rw [if_pos rfl] at h ⊢
      exact sim_known_bind_nextT hlast (by simp) (fun _ => ih _) p a s₂ hp hget h
    · intro p a s₂ hp hget h
      rw [if_neg hc] at h ⊢
      exact sim_pure _ p a s₂ hp h

theorem sim_cl {ts sfx : List Token}
    (hlast : ts.get? (ts.length - 1) = some Token.Semicolon) :
    ∀ fuel acc, Sim ts sfx (constraint_loop fuel acc) := by
  intro fuel
  induction fuel with
  | zero => intro acc p a s₂ hp h; simp [constraint_loop] at h
  | succ f ih =>
    intro acc
    simp only [constraint_loop]
    refine sim_bind_peekT (fun t => ?_)
    cases t
    case Keyword k =>
      cases k <;>
        first
        | exact sim_known_of_sim (sim_pure _)
        | exact sim_known_bind_nextT hlast (by simp)
            (fun _ => sim_bind (sim_expectT hlast (by simp)) (fun _ => ih _))
        | exact sim_known_bind_nextT hlast (by simp)
            (fun _ => sim_bind (sim_expectT hlast (by simp))
              (fun _ => sim_bind ((sim_pe_el hlast f).1 0)
                (fun e => sim_bind (sim_expectT hlast (by simp)) (fun _ => ih _))))
    all_goals exact sim_known_of_sim (sim_pure _)

theorem sim_ccl {ts sfx : List Token}
    (hlast : ts.get? (ts.length - 1) = some Token.Semicolon) :
    ∀ fuel acc, Sim ts sfx (create_columns_loop fuel acc) := by
  intro fuel
  induction fuel with
  | zero => intro acc p a s₂ hp h; simp [create_columns_loop] at h
  | succ f ih =>
    intro acc
    simp only [create_columns_loop]
    refine sim_bind_peekT (fun pk => ?_)
    by_cases hrp : pk = Token.RightParentheses
    · subst hrp
      intro p a s₂ hp hget h
      rw [if_pos rfl] at h ⊢
      exact sim_known_bind_nextT hlast (by simp) (fun _ => sim_pure _) p a s₂ hp hget h
    · intro p a s₂ hp hget h
      rw [if_neg hrp] at h ⊢
      have hrest : ∀ (cn : List Char) (tp : DBType), Sim ts sfx
          ((constraint_loop f [] : PM (List Constraint)) >>= fun cst =>
            peekT >>= fun d =>
              (match d with
              | Token.Comma => nextT >>= fun _ =>
                  create_columns_loop f (acc ++ [TableColumn.mk cn tp cst])
              | Token.RightParentheses => nextT >>= fun _ =>
                  pure (acc ++ [TableColumn.mk cn tp cst])
              | _ => perr "Expected comma or right parenthesis")) := by
        intro cn tp
        refine sim_bind (sim_cl hlast f []) (fun cst => ?_)
        refine sim_bind_peekT (fun d => ?_)
        cases d <;>
          first
          | exact sim_known_of_sim (sim_perr _)
          | exact sim_known_bind_nextT hlast (by simp) (fun _ => ih _)
          | exact sim_known_bind_nextT hlast (by simp) (fun _ => sim_pure _)
      refine sim_bind_nextT hlast ?_ ?_ p a s₂ hp h
      · intro s b s₃ hcon
        dsimp only at hcon
        rw [perr_bind_apply] at hcon
        cases hcon
      · intro u
        cases u <;> try exact sim_bind_perr _ _
        rename_i w
        refine sim_bind (sim_pure _) (fun col_name => ?_)
        refine sim_bind_peekT (fun tp => ?_)
        cases tp <;> try exact sim_known_of_sim (sim_bind_perr _ _)
        rename_i k
        cases k <;>
          first
          | exact sim_known_of_sim (sim_bind_perr _ _)
          | exact sim_known_bind_nextT hlast (by simp)
              (fun _ => sim_bind (sim_pure _) (fun ct => hrest col_name ct))
          | (refine sim_known_bind_nextT hlast (by simp) (fun _ => ?_)
             refine sim_bind (sim_expectT hlast (by simp)) (fun _ => ?_)
             refine sim_bind_nextT hlast ?_ ?_
             · intro s b s₃ hcon
               dsimp only at hcon
               rw [perr_bind_apply] at hcon
               cases hcon
             · intro n
               cases n <;> try exact sim_bind_perr _ _
               rename_i m
               refine sim_bind (sim_pure _) (fun len => ?_)
               refine sim_bind (sim_expectT hlast (by simp)) (fun _ => ?_)
               exact sim_bind (sim_pure _) (fun ct => hrest col_name ct))

theorem simE_parse_select {ts sfx : List Token}
    (hlast : ts.get? (ts.length - 1) = some Token.Semicolon) :
    ∀ fuel, SimE ts sfx (parse_select fuel) := by
  intro fuel
  cases fuel with
  | zero => intro p a s₂ hp h; simp [parse_select] at h
  | succ f =>
    simp only [parse_select]
    refine simE_bind (sim_ecl hlast f []) (fun columns => ?_)
    refine simE_bind (sim_expectT hlast (by simp)) (fun _ => ?_)
    refine simE_bind_nextT hlast ?_ ?_
    · intro s b s₃ hcon
      dsimp only at hcon
      rw [perr_bind_apply] at hcon
      cases hcon
    · intro u
      cases u <;> try exact simE_bind_perr _ _
      rename_i nm
      refine simE_bind (sim_pure _) (fun table_name => ?_)
      have hrest : ∀ w : Option Expression, SimE ts sfx
          ((pure w : PM (Option Expression)) >>= fun whereClause =>
            peekT >>= fun pk2 =>
              (if pk2 = Token.Keyword Keyword.Order then
                nextT >>= fun _ =>
                  expectT (Token.Keyword Keyword.By) >>= fun _ =>
                    expr_comma_list f [] >>= fun orderby =>
                      expectT Token.Semicolon >>= fun _ =>
                        pure (Statement.Select columns table_name whereClause orderby)
              else
                (pure ([] : List Expression) : PM (List Expression)) >>= fun orderby =>
                  expectT Token.Semicolon >>= fun _ =>
                    pure (Statement.Select columns table_name whereClause orderby))) := by
        intro w
        refine simE_bind (sim_pure _) (fun whereClause => ?_)
        refine simE_bind_peekT (fun pk2 => ?_)
        by_cases hor : pk2 = Token.Keyword Keyword.Order
        · subst hor
          intro p a s₂ hp hget h
          rw [if_pos rfl] at h ⊢
          refine simE_known_bind_nextT hlast (by simp) (fun _ => ?_) p a s₂ hp hget h
          refine simE_bind (sim_expectT hlast (by simp)) (fun _ => ?_)
          refine simE_bind (sim_ecl hlast f []) (fun orderby => ?_)
          exact simE_expectSemi_pure _
        · intro p a s₂ hp hget h
          rw [if_neg hor] at h ⊢
          refine simE_bind (sim_pure _) (fun orderby => ?_) p a s₂ hp h
          exact simE_expectSemi_pure _
      refine simE_bind_peekT (fun pk => ?_)
      by_cases hw : pk = Token.Keyword Keyword.Where
      · subst hw
        intro p a s₂ hp hget h
        rw [if_pos rfl] at h ⊢
        refine simE_known_bind_nextT hlast (by simp) (fun _ => ?_) p a s₂ hp hget h
        refine simE_bind ((sim_pe_el hlast f).1 0) (fun e => ?_)
        exact hrest (some e)
      · intro p a s₂ hp hget h
        rw [if_neg hw] at h ⊢
        exact hrest none p a s₂ hp h

theorem simE_parse_create_table {ts sfx : List Token}
    (hlast : ts.get? (ts.length - 1) = some Token.Semicolon) :
    ∀ fuel, SimE ts sfx (parse_create_table fuel) := by
  intro fuel
  cases fuel with
  | zero => intro p a s₂ hp h; simp [parse_create_table] at h
  | succ f =>
    simp only [parse_create_table]
    refine simE_bind (sim_expectT hlast (by simp)) (fun _ => ?_)
    refine simE_bind_nextT hlast ?_ ?_
    · intro s b s₃ hcon
      dsimp only at hcon
      rw [perr_bind_apply] at hcon
      cases hcon
    · intro u
      cases u <;> try exact simE_bind_perr _ _
      rename_i nm
      refine simE_bind (sim_pure _) (fun table_name => ?_)
      refine simE_bind (sim_expectT hlast (by simp)) (fun _ => ?_)
      refine simE_bind (sim_ccl hlast f []) (fun columns => ?_)
      exact simE_expectSemi_pure _

theorem simE_parse_statement {ts sfx : List Token}
    (hlast : ts.get? (ts.length - 1) = some Token.Semicolon) :
    ∀ fuel, SimE ts sfx (parse_statement fuel) := by
  intro fuel
  cases fuel with
  | zero => intro p a s₂ hp h; simp [parse_statement] at h
  | succ f =>
    simp only [parse_statement]
    refine simE_bind_peekT (fun t => ?_)
    cases t <;> try exact simE_known_of_simE (simE_of_sim (sim_perr _))
    rename_i k
    cases k <;>
      first
      | exact simE_known_of_simE (simE_of_sim (sim_perr _))
      | exact simE_known_bind_nextT hlast (by simp)
          (fun _ => simE_parse_select hlast f)
      | exact simE_known_bind_nextT hlast (by simp)
          (fun _ => simE_parse_create_table hlast f)

/-- C9: `parse_statement` ignores every token that follows the terminating
`;` of a successfully parsed statement: if the token list `ts` ends at its
terminating `;` and parses to `stmt`, then `ts ++ sfx` parses to the same
`stmt` for every suffix `sfx`, with no error about trailing input. -/
theorem claim_C9 (ts sfx : List Token) (fuel : Nat) (stmt : Statement) (s₂ : Parser)
    (hlast : ts.get? (ts.length - 1) = some Token.Semicolon)
    (hok : parse_statement fuel ⟨ts, 0⟩ = PRes.ok stmt s₂) :
    ∃ q, parse_statement fuel ⟨ts ++ sfx, 0⟩ = PRes.ok stmt ⟨ts ++ sfx, q⟩ := by
  have hlen : 0 + 1 ≤ ts.length := by
    obtain ⟨hlt, _⟩ := List.get?_eq_some.mp hlast
    omega
  exact simE_parse_statement hlast fuel 0 stmt s₂ hlen hok

theorem claim_C9_witness :
    c9_tokens.get? (c9_tokens.length - 1) = some Token.Semicolon ∧
    parse_statement 20 ⟨c9_tokens, 0⟩ =
      PRes.ok (Statement.Select [Expression.Identifier ['a']] ['t'] none [])
        ⟨c9_tokens, 4⟩ ∧
    ∃ q, parse_statement 20 ⟨c9_tokens ++ c9_suffix, 0⟩ =
      PRes.ok (Statement.Select [Expression.Identifier ['a']] ['t'] none [])
        ⟨c9_tokens ++ c9_suffix, q⟩ :=
  ⟨by decide, by decide,
    claim_C9 c9_tokens c9_suffix 20 _ ⟨c9_tokens, 4⟩ (by decide) (by decide)⟩

end SQLParse
